import Mathlib

/-!
Verification development for the friday agent runtime.

Shallow embedding of the core components referenced by the specification:
the PII redaction helpers (`friday/utils/redact.py`), the JSON-schema
argument validator (`friday/utils/jsonschema.py`), the tool policy
(`friday/core/policy.py`), the tool gateway (`friday/tools/gateway.py`),
the in-memory event bus (`friday/bus/broker.py`), the filesystem sandbox
(`friday/tools/local/fs_ops.py`), schedule computation
(`friday/core/scheduling.py`) and the agent runtime state machine
(`friday/core/agent_runtime.py`).

Machine strings are modelled as `List Char` where character-level matching
matters (redaction) and as `String` elsewhere.  Python `async` control flow
is serialized (the event loop is single-threaded and every await site in the
modelled code awaits to completion before the caller resumes).  Exceptions
are modelled with `Except`.
-/

/-- JSON values, as produced and consumed by the tools and the audit log.
Numbers are kept as integers (the modelled code never manipulates numeric
payloads). -/
inductive Json where
  | null : Json
  | bool (b : Bool) : Json
  | num (n : Int) : Json
  | str (s : String) : Json
  | arr (items : List Json) : Json
  | obj (fields : List (String × Json)) : Json

/-! ## Redaction (`friday/utils/redact.py`)

`EMAIL_RE = [A-Za-z0-9._%+-]+@[A-Za-z0-9.-]+\.[A-Za-z]{2,}` and
`TOKEN_RE = (?i)(api_key|token|secret)=([A-Za-z0-9_-]+)`, applied with
`re.sub` (leftmost, non-overlapping, greedy with backtracking).  The char
classes are encoded on code points so that facts about arbitrary characters
reduce to arithmetic. -/

/-- Characters of the local part of `EMAIL_RE`: `[A-Za-z0-9._%+-]`. -/
def isLocalChar (c : Char) : Bool :=
  decide ((65 ≤ c.toNat ∧ c.toNat ≤ 90) ∨ (97 ≤ c.toNat ∧ c.toNat ≤ 122) ∨
    (48 ≤ c.toNat ∧ c.toNat ≤ 57) ∨ c.toNat = 46 ∨ c.toNat = 95 ∨
    c.toNat = 37 ∨ c.toNat = 43 ∨ c.toNat = 45)

/-- Characters of the domain part of `EMAIL_RE`: `[A-Za-z0-9.-]`. -/
def isDomainChar (c : Char) : Bool :=
  decide ((65 ≤ c.toNat ∧ c.toNat ≤ 90) ∨ (97 ≤ c.toNat ∧ c.toNat ≤ 122) ∨
    (48 ≤ c.toNat ∧ c.toNat ≤ 57) ∨ c.toNat = 46 ∨ c.toNat = 45)

/-- `[A-Za-z]`, the class of the top-level-domain part of `EMAIL_RE`. -/
def isAsciiAlpha (c : Char) : Bool :=
  decide ((65 ≤ c.toNat ∧ c.toNat ≤ 90) ∨ (97 ≤ c.toNat ∧ c.toNat ≤ 122))

/-- Characters of the value group of `TOKEN_RE`: `[A-Za-z0-9_-]`. -/
def isValueChar (c : Char) : Bool :=
  decide ((65 ≤ c.toNat ∧ c.toNat ≤ 90) ∨ (97 ≤ c.toNat ∧ c.toNat ≤ 122) ∨
    (48 ≤ c.toNat ∧ c.toNat ≤ 57) ∨ c.toNat = 95 ∨ c.toNat = 45)

/-- Backtracking search for the `\.[A-Za-z]{2,}` split of the domain of
`EMAIL_RE`, mirroring the regex engine: the greedy `[A-Za-z0-9.-]+` is
retracted from the longest consumption downwards, so the largest split
index `d ≥ 1` with a dot at `d` and at least two following letters wins.
Returns the split index and the (greedy) length of the letter run. -/
def emailDomainSplit (aft : List Char) : Nat → Option (Nat × Nat)
  | 0 => none
  | d + 1 =>
    let r := ((aft.drop (d + 2)).takeWhile isAsciiAlpha).length
    if aft.get? (d + 1) = some '.' ∧ 2 ≤ r then some (d + 1, r)
    else emailDomainSplit aft d

/-- Length of the match of `EMAIL_RE` anchored at the head of `s`
(Python scanning tries every position in turn; this is one position).
`[A-Za-z0-9._%+-]+` is effectively possessive because `@` is outside the
class, so the local run is the maximal one. -/
def emailMatchAt (s : List Char) : Option Nat :=
  let l := s.takeWhile isLocalChar
  if l.length = 0 then none
  else
    match s.drop l.length with
    | b :: aft =>
      if b = '@' then
        let dom := aft.takeWhile isDomainChar
        match emailDomainSplit aft (dom.length - 1) with
        | some (d, r) => some (l.length + 1 + d + 1 + r)
        | none => none
      else none
    | [] => none

/-- Case-insensitive match of a (lowercase) pattern character against a text
character, as `re.IGNORECASE` does on ASCII. -/
def ciChar (pat c : Char) : Bool :=
  decide (c = pat ∨ (97 ≤ pat.toNat ∧ pat.toNat ≤ 122 ∧ c.toNat + 32 = pat.toNat))

/-- Strip a case-insensitive literal keyword from the head of `s`, returning
the matched original text and the remainder. -/
def stripCI : List Char → List Char → Option (List Char × List Char)
  | [], s => some ([], s)
  | _ :: _, [] => none
  | p :: ps, c :: cs =>
    if ciChar p c then
      match stripCI ps cs with
      | some (k, r) => some (c :: k, r)
      | none => none
    else none

/-- One alternative of `TOKEN_RE`: keyword (case-insensitive), `=`, then a
non-empty greedy run of `[A-Za-z0-9_-]`.  Returns the matched keyword text
(group 1) and the total match length. -/
def tokenTryKey (kw : List Char) (s : List Char) : Option (List Char × Nat) :=
  match stripCI kw s with
  | some (k, rest1) =>
    match rest1 with
    | b :: rest =>
      if b = '=' then
        let v := rest.takeWhile isValueChar
        if 1 ≤ v.length then some (k, k.length + 1 + v.length) else none
      else none
    | [] => none
  | none => none

/-- Match of `TOKEN_RE` anchored at the head of `s`; the alternation is tried
in source order (`api_key`, `token`, `secret`). -/
def tokenMatchAt (s : List Char) : Option (List Char × Nat) :=
  (tokenTryKey "api_key".toList s).orElse fun _ =>
    (tokenTryKey "token".toList s).orElse fun _ =>
      tokenTryKey "secret".toList s

/-- Replacement text of `EMAIL_RE.sub`. -/
def emailPlaceholder : List Char := "[redacted-email]".toList

/-- Tail of the replacement of `TOKEN_RE.sub` after `<group1>=`. -/
def tokenPlaceholder : List Char := "[redacted]".toList

/-- `EMAIL_RE.sub("[redacted-email]", s)`: scan left to right, replace each
leftmost match, resume after it. -/
def emailSub : List Char → List Char
  | [] => []
  | c :: rest =>
    match emailMatchAt (c :: rest) with
    | some n => emailPlaceholder ++ emailSub (rest.drop (n - 1))
    | none => c :: emailSub rest
termination_by s => s.length
decreasing_by
  · simp only [List.length_drop, List.length_cons]; omega
  · simp only [List.length_cons]; omega

/-- `TOKEN_RE.sub(r"\1=[redacted]", s)`. -/
def tokenSub : List Char → List Char
  | [] => []
  | c :: rest =>
    match tokenMatchAt (c :: rest) with
    | some (k, n) => k ++ '=' :: tokenPlaceholder ++ tokenSub (rest.drop (n - 1))
    | none => c :: tokenSub rest
termination_by s => s.length
decreasing_by
  · simp only [List.length_drop, List.length_cons]; omega
  · simp only [List.length_cons]; omega

/-- `redact_text`: emails first, then `key=value` tokens. -/
def redact_text (s : List Char) : List Char :=
  tokenSub (emailSub s)

/-- String-level wrapper used by the gateway log model. -/
def redactString (s : String) : String :=
  ⟨redact_text s.data⟩

mutual

/-- `redact_json`: recursive application through JSON values; dictionary
keys and non-strings are untouched (`list` and `dict` comprehensions are
unfolded into mutual structural recursion). -/
def redact_json : Json → Json
  | .str s => .str (redactString s)
  | .arr items => .arr (redactArr items)
  | .obj fields => .obj (redactObj fields)
  | .null => .null
  | .bool b => .bool b
  | .num n => .num n

/-- `[redact_json(item) for item in value]`. -/
def redactArr : List Json → List Json
  | [] => []
  | v :: rest => redact_json v :: redactArr rest

/-- `{key: redact_json(item) for key, item in value.items()}`. -/
def redactObj : List (String × Json) → List (String × Json)
  | [] => []
  | (k, v) :: rest => (k, redact_json v) :: redactObj rest

end

/-! ## Tool policy (`friday/core/policy.py`) -/

inductive RiskLevel where
  | safe | confirm | dangerous
  deriving DecidableEq, Repr

inductive Decision where
  | allow | confirm | deny
  deriving DecidableEq, Repr

structure PolicyDecision where
  decision : Decision
  reason : String
  deriving DecidableEq, Repr

structure ToolPolicy where
  confirm_tools : List String
  deny_tools : List String
  deriving Repr

/-- `ToolPolicy.evaluate`: explicit deny-list, explicit confirm-list, then
risk-based default. -/
def ToolPolicy.evaluate (p : ToolPolicy) (tool_name : String) (risk_level : RiskLevel) :
    PolicyDecision :=
  if tool_name ∈ p.deny_tools then ⟨.deny, "Tool is blocked by policy"⟩
  else if tool_name ∈ p.confirm_tools then ⟨.confirm, "Tool requires confirmation"⟩
  else if risk_level = .safe then ⟨.allow, "Safe tool"⟩
  else if risk_level = .confirm then ⟨.confirm, "Tool requires confirmation"⟩
  else ⟨.deny, "Tool is dangerous by default"⟩

/-! ## JSON-schema argument validation (`friday/utils/jsonschema.py`)

`validate_jsonschema` delegates to `jsonschema.validate`.  Every
`args_schema` the repository registers has the shape
`{"type": "object", "properties": {name: {"type": t}}, "required": [...]}`
with property types `string` or `object`; the model implements
`jsonschema.validate` for exactly that shape: the instance must be an
object, every required key must be present, and every present key that is
listed under `properties` must have the declared type (additional
properties are permitted). -/

inductive JTy where
  | string | object
  deriving DecidableEq, Repr

structure ArgsSchema where
  props : List (String × JTy)
  required : List String
  deriving Repr

def typeOk : JTy → Json → Bool
  | .string, .str _ => true
  | .object, .obj _ => true
  | _, _ => false

def lookupField (fields : List (String × Json)) (k : String) : Option Json :=
  match fields.find? (fun kv => kv.1 = k) with
  | some kv => some kv.2
  | none => none

/-- `True` iff `jsonschema.validate(instance=data, schema=schema)` raises no
`ValidationError` for schemas of the modelled shape. -/
def validate_jsonschema (schema : ArgsSchema) (data : Json) : Bool :=
  match data with
  | .obj fields =>
    schema.required.all (fun k => (lookupField fields k).isSome) &&
      fields.all (fun kv =>
        match schema.props.find? (fun p => p.1 = kv.1) with
        | some p => typeOk p.2 kv.2
        | none => true)
  | _ => false

/-! ## Tool registry (`friday/tools/registry.py`) and gateway schemas
(`friday/bus/schemas.py`) -/

structure ToolSpec where
  name : String
  description : String
  args_schema : ArgsSchema
  risk_level : RiskLevel
  timeout_ms : Nat
  deriving Repr

/-- The registry's `{name → ToolSpec}` map; the parallel handler map is
modelled by the handler semantics in `GatewayEnv` (both maps are updated
together by `register`). -/
def regGet (reg : List (String × ToolSpec)) (name : String) : Option ToolSpec :=
  match reg.find? (fun kv => kv.1 = name) with
  | some kv => some kv.2
  | none => none

structure ToolCall where
  session_id : String
  call_id : String
  tool : String
  args : Json
  requires_confirm : Bool

structure ToolResult where
  call_id : String
  ok : Bool
  result : Option Json
  error : Option String
  elapsed_ms : Nat

/-! ## Tool gateway (`friday/tools/gateway.py`) -/

/-- Outcome of `await asyncio.wait_for(handler(**call.args), timeout=...)`:
the handler returns a value (possibly `None`), raises, or exceeds the
deadline.  On timeout `wait_for` raises `TimeoutError`, which the
gateway's `except Exception` catches; `str()` of that exception is the
empty string. -/
inductive HandlerOutcome where
  | ok (value : Option Json)
  | exn (message : String)
  | timeout

/-- Exceptions `ToolGateway.execute` can raise (they propagate to the
caller): `KeyError` from the registry lookup, `ConfirmationRequired`, and
`jsonschema.ValidationError` from `validate_jsonschema`. -/
inductive ExecErr where
  | notRegistered (name : String)
  | confirmationRequired (tool_name reason : String)
  | validationError
  deriving DecidableEq, Repr

structure ToolCallLog where
  call_id : String
  session_id : String
  tool : String
  args : Json
  result : Option Json
  ok : Bool
  elapsed_ms : Nat
  ts : Int

/-- Environment of one gateway invocation: registry and policy contents,
handler semantics, the measured wall-clock duration of the handler attempt,
the current unix time, and whether a database path was configured
(`_log_tool_call` returns without writing when it is not). -/
structure GatewayEnv where
  reg : List (String × ToolSpec)
  policy : ToolPolicy
  hsem : String → Json → HandlerOutcome
  elapsedMs : Nat
  now : Int
  dbConfigured : Bool

/-- `ToolGateway._log_tool_call_sync`: the written `ToolCallLog` row, with
args and result redacted.  (`redact_json(result.result) if result.result
else None`: the result is `{"data": value}` when present, hence truthy.) -/
def mkLog (env : GatewayEnv) (call : ToolCall) (result : ToolResult) : ToolCallLog :=
  { call_id := call.call_id
    session_id := call.session_id
    tool := call.tool
    args := redact_json call.args
    result := match result.result with
      | some r => some (redact_json r)
      | none => none
    ok := result.ok
    elapsed_ms := result.elapsed_ms
    ts := env.now }

/-- `ToolGateway.execute`.  Returns the result (or the raised exception)
together with the audit-log rows written during the call. -/
def ToolGateway.execute (env : GatewayEnv) (call : ToolCall) :
    Except ExecErr ToolResult × List ToolCallLog :=
  match regGet env.reg call.tool with
  | none => (.error (.notRegistered call.tool), [])
  | some spec =>
    let decision := env.policy.evaluate spec.name spec.risk_level
    if decision.decision = .deny then
      (.ok { call_id := call.call_id, ok := false, result := none,
             error := some decision.reason, elapsed_ms := 0 }, [])
    else if decision.decision = .confirm ∧ call.requires_confirm then
      (.error (.confirmationRequired spec.name decision.reason), [])
    else if validate_jsonschema spec.args_schema call.args = false then
      (.error .validationError, [])
    else
      match env.hsem call.tool call.args with
      | .exn msg =>
        let r : ToolResult := { call_id := call.call_id, ok := false, result := none,
                                error := some msg, elapsed_ms := env.elapsedMs }
        (.ok r, if env.dbConfigured then [mkLog env call r] else [])
      | .timeout =>
        let r : ToolResult := { call_id := call.call_id, ok := false, result := none,
                                error := some "", elapsed_ms := env.elapsedMs }
        (.ok r, if env.dbConfigured then [mkLog env call r] else [])
      | .ok value =>
        let r : ToolResult := { call_id := call.call_id, ok := true,
                                result := match value with
                                  | some v => some (.obj [("data", v)])
                                  | none => none,
                                error := none, elapsed_ms := env.elapsedMs }
        (.ok r, if env.dbConfigured then [mkLog env call r] else [])

/-! ## Event bus (`friday/bus/broker.py`)

`InMemoryBus.publish` snapshots the handler list and awaits each handler in
turn: `for handler in handlers: await handler(message)`.  There is no
`try`/`except` around the body.  A handler is modelled by an identifier
plus a semantics function giving its outcome on the message; `publish`
returns the identifiers of the handlers it actually awaited, in order,
together with the exception that escaped (if any). -/

structure BusHandler where
  id : Nat

/-- `InMemoryBus.publish` on one topic's subscriber list. -/
def InMemoryBus.publish (hsem : Nat → String → Except String Unit)
    (handlers : List BusHandler) (message : String) : List Nat × Option String :=
  match handlers with
  | [] => ([], none)
  | h :: rest =>
    match hsem h.id message with
    | .ok _ =>
      let out := InMemoryBus.publish hsem rest message
      (h.id :: out.1, out.2)
    | .error e => ([h.id], some e)

/-! ## Filesystem sandbox (`friday/tools/local/fs_ops.py`)

Paths are modelled lexically as component lists of absolute POSIX paths
(`pathlib.Path.resolve()` with no symlinks present; `expanduser` is the
identity for the modelled inputs, which contain no `~`).  `..` at the
filesystem root stays at the root, as in POSIX resolution. -/

/-- A user-supplied path as parsed by `pathlib.PurePath`: its components and
whether it is absolute (an absolute right operand of `/` replaces the left
operand entirely). -/
structure UserPath where
  absolute : Bool
  comps : List String

/-- Lexical `Path.resolve()`: process `.` and `..` against a component
stack. -/
def normalizeComps (acc : List String) : List String → List String
  | [] => acc
  | c :: rest =>
    if c = ".." then normalizeComps acc.dropLast rest
    else if c = "." then normalizeComps acc rest
    else normalizeComps (acc ++ [c]) rest

/-- `workspace_root in candidate.parents`: the root is a strict ancestor of
the candidate. -/
def isStrictAncestor (root candidate : List String) : Bool :=
  candidate.take root.length = root && root.length < candidate.length

/-- `resolve_path(workspace_path, user_path)`: resolve the workspace root,
join and resolve the candidate, accept the root itself or any path the root
strictly contains, and raise `ValueError("Path escapes workspace")`
otherwise. -/
def resolve_path (workspace_path : List String) (user_path : UserPath) :
    Except String (List String) :=
  let workspace_root := normalizeComps [] workspace_path
  let joined := if user_path.absolute then user_path.comps
                else workspace_root ++ user_path.comps
  let candidate := normalizeComps [] joined
  if candidate = workspace_root then .ok candidate
  else if isStrictAncestor workspace_root candidate then .ok candidate
  else .error "Path escapes workspace"

/-- `read_text(workspace_path, user_path)`: resolve, then read.  The
filesystem is a lookup from resolved paths to contents; a failed lookup is
the `FileNotFoundError` of `path.read_text`. -/
def fs_read_text (fs : List String → Option String)
    (workspace_path : List String) (user_path : UserPath) : Except String String :=
  match resolve_path workspace_path user_path with
  | .error e => .error e
  | .ok p =>
    match fs p with
    | some content => .ok content
    | none => .error "FileNotFoundError"

/-! ## Schedule computation (`friday/core/scheduling.py`)

`next_run_ts` delegates the `RRULE:` branch to
`dateutil.rrule.rrulestr(schedule, dtstart=...).after(dt, inc=False)`.
`dateutil` is an external dependency; it is modelled by an environment
function `rruleAfter` returning the epoch timestamp (in seconds, as an
exact rational) of the first occurrence of the rule after the given
instant, or `none`.  Its documented contract — `after(dt, inc=False)` is
strictly after `dt`, and occurrences generated from a whole-second
`dtstart` fall on whole seconds — is a hypothesis of the theorems that use
it.  ISO datetimes are likewise modelled by a parse function returning an
epoch timestamp as a rational (fractional seconds are representable). -/

def isPySpace (c : Char) : Bool :=
  decide (c.toNat = 32 ∨ c.toNat = 9 ∨ c.toNat = 10 ∨ c.toNat = 13 ∨
    c.toNat = 11 ∨ c.toNat = 12)

/-- Python `str.strip()` (ASCII whitespace). -/
def pyStrip (s : String) : String :=
  ⟨((s.data.dropWhile isPySpace).reverse.dropWhile isPySpace).reverse⟩

def asciiUpper (c : Char) : Char :=
  if 97 ≤ c.toNat ∧ c.toNat ≤ 122 then Char.ofNat (c.toNat - 32) else c

def listStartsWith : List Char → List Char → Bool
  | [], _ => true
  | _ :: _, [] => false
  | p :: ps, c :: cs => p = c && listStartsWith ps cs

structure SchedEnv where
  /-- `rrulestr(schedule, dtstart=t).after(t, inc=False)`, as epoch seconds. -/
  rruleAfter : String → Int → Option ℚ
  /-- `datetime.fromisoformat`, as epoch seconds (UTC assumed when naive). -/
  parseIso : String → Option ℚ

/-- Python `int()` on a float/rational: truncation toward zero. -/
def pyInt (q : ℚ) : Int := q.num / q.den

/-- `schedule.upper().startswith("RRULE:")` (applied to the stripped
schedule). -/
def isRRule (schedule : String) : Bool :=
  listStartsWith "RRULE:".data (schedule.data.map asciiUpper)

/-- `next_run_ts(schedule, after_ts)`; `.error` is the raised
`ValueError("Invalid schedule format: ...")`. -/
def next_run_ts (env : SchedEnv) (schedule : String) (after_ts : Int) :
    Except String (Option Int) :=
  let schedule := pyStrip schedule
  if isRRule schedule then
    match env.rruleAfter schedule after_ts with
    | some q => .ok (some (pyInt q))
    | none => .ok none
  else
    match env.parseIso schedule with
    | none => .error ("Invalid schedule format: " ++ schedule)
    | some q =>
      if q ≤ (after_ts : ℚ) then .ok none
      else .ok (some (pyInt q))

/-! ## Agent runtime (`friday/core/agent_runtime.py`)

One `handle_input_text` invocation is modelled as a pure transition on the
runtime state (persisted store + `_pending` slot + id counter), driven by an
environment holding the gateway configuration, the LLM client semantics and
the clock.  The returned `StepOut` carries the new state, the produced
`OutputText` (or the exception that propagated to the caller), the trace of
`ToolGateway.execute` invocations, and the audit-log rows written. -/

structure Msg where
  role : String
  content : String
  ts : Int
  deriving DecidableEq, Repr

/-- Per-session message store (`StateStore`): `add_message` appends,
`list_messages` returns the session's messages in insertion order. -/
def addMsg (store : List (String × List Msg)) (sid role content : String) (ts : Int) :
    List (String × List Msg) :=
  match store with
  | [] => [(sid, [⟨role, content, ts⟩])]
  | (s, msgs) :: rest =>
    if s = sid then (s, msgs ++ [⟨role, content, ts⟩]) :: rest
    else (s, msgs) :: addMsg rest sid role content ts

def list_messages (store : List (String × List Msg)) (sid : String) : List Msg :=
  match store with
  | [] => []
  | (s, msgs) :: rest => if s = sid then msgs else list_messages rest sid

structure InputTextM where
  session_id : String
  text : String
  ts : Int

/-- `OutputText` (its generated uuid `message_id` and `ts = now_ts()` are
informational and omitted). -/
structure OutputTextM where
  session_id : String
  text : String
  deriving DecidableEq, Repr

/-- Entries of the working prompt list built for the LLM. -/
inductive PromptMsg where
  | system (content : String)
  | plain (role content : String)
  | assistantCalls (content : String) (raw : List Json)
  | toolMsg (tool_call_id content : String)

structure LLMToolCall where
  id : String
  name : String
  arguments : Json

structure LLMResponse where
  content : Option String
  tool_calls : List LLMToolCall
  raw_tool_calls : List Json

/-- Outcome of one `OpenRouterClient.chat` request. -/
inductive LlmOutcome where
  | ok (r : LLMResponse)
  | exn (message : String)

structure PendingToolCall where
  session_id : String
  tool_call : ToolCall
  llm_tool_call_id : String
  messages : List PromptMsg

structure RuntimeState where
  store : List (String × List Msg)
  pending : Option PendingToolCall
  /-- source of fresh `new_call_id()` values (uuid4 in the source). -/
  counter : Nat

structure RuntimeEnv where
  gw : GatewayEnv
  llmConfigured : Bool
  llmChat : List PromptMsg → List Json → LlmOutcome
  maxToolSteps : Nat
  systemPrompt : String
  toolPrompt : String
  now : Int

structure StepOut where
  state : RuntimeState
  output : Except ExecErr OutputTextM
  gwCalls : List ToolCall
  logs : List ToolCallLog

/-! ### JSON serialization (`json.dumps`, default separators) -/

def hexDigit (n : Nat) : Char :=
  if n < 10 then Char.ofNat (48 + n) else Char.ofNat (87 + n)

def escapeJsonChar (c : Char) : String :=
  if c = '"' then "\\\""
  else if c = '\\' then "\\\\"
  else if c.toNat = 10 then "\\n"
  else if c.toNat = 9 then "\\t"
  else if c.toNat = 13 then "\\r"
  else if c.toNat < 32 then "\\u00" ++ String.mk [hexDigit (c.toNat / 16), hexDigit (c.toNat % 16)]
  else String.singleton c

def jsonDumpsStr (s : String) : String :=
  "\"" ++ String.join (s.data.map escapeJsonChar) ++ "\""

mutual

def jsonDumps : Json → String
  | .null => "null"
  | .bool true => "true"
  | .bool false => "false"
  | .num n => toString n
  | .str s => jsonDumpsStr s
  | .arr items => "[" ++ jsonDumpsArr items ++ "]"
  | .obj fields => "\x7b" ++ jsonDumpsObj fields ++ "\x7d"

def jsonDumpsArr : List Json → String
  | [] => ""
  | [v] => jsonDumps v
  | v :: rest => jsonDumps v ++ ", " ++ jsonDumpsArr rest

def jsonDumpsObj : List (String × Json) → String
  | [] => ""
  | [(k, v)] => jsonDumpsStr k ++ ": " ++ jsonDumps v
  | (k, v) :: rest => jsonDumpsStr k ++ ": " ++ jsonDumps v ++ ", " ++ jsonDumpsObj rest

end

/-- `json.dumps(result.result if result.result is not None else
{"error": result.error})`. -/
def toolContentOf (result : ToolResult) : String :=
  jsonDumps (match result.result with
    | some r => r
    | none => .obj [("error", match result.error with
        | some e => .str e
        | none => .null)])

/-! ### Text normalisation (`message.text.strip().lower()`) -/

def asciiLower (c : Char) : Char :=
  if 65 ≤ c.toNat ∧ c.toNat ≤ 90 then Char.ofNat (c.toNat + 32) else c

def normDecision (text : String) : String :=
  ⟨(((text.data.dropWhile isPySpace).reverse.dropWhile isPySpace).reverse).map asciiLower⟩

/-! ### Prompt assembly -/

def schemaJson (s : ArgsSchema) : Json :=
  .obj [("type", .str "object"),
        ("properties", .obj (s.props.map fun p =>
          (p.1, Json.obj [("type", .str (match p.2 with
            | .string => "string"
            | .object => "object"))]))),
        ("required", .arr (s.required.map Json.str))]

/-- `_tool_specs_for_llm`. -/
def toolSpecsForLLM (reg : List (String × ToolSpec)) : List Json :=
  reg.map fun kv =>
    .obj [("type", .str "function"),
          ("function", .obj [("name", .str kv.2.name),
                             ("description", .str kv.2.description),
                             ("parameters", schemaJson kv.2.args_schema)])]

/-- `_build_messages`: system + tool prompt, then the last 40 history
messages mapped one-to-one by role/content. -/
def buildMessages (env : RuntimeEnv) (st : RuntimeState) (sid : String) : List PromptMsg :=
  let history := list_messages st.store sid
  .system (env.systemPrompt ++ "\n\n" ++ env.toolPrompt) ::
    (history.drop (history.length - 40)).map fun m => .plain m.role m.content

/-- `_finalize_llm_response`: `response.content or "No response."` (Python
truthiness: `None` and `""` both fall back), persisted as an assistant
message and emitted. -/
def finalizeContent (content : Option String) : String :=
  match content with
  | some c => if c = "" then "No response." else c
  | none => "No response."

def finalizeLLMResponse (env : RuntimeEnv) (st : RuntimeState) (sid : String)
    (resp : LLMResponse) : RuntimeState × OutputTextM :=
  let content := finalizeContent resp.content
  ({ st with store := addMsg st.store sid "assistant" content env.now },
   ⟨sid, content⟩)

/-! ### The tool loop (`_handle_llm`) -/

/-- Result of dispatching the tool calls of one LLM response: either the
turn halts (output emitted or exception propagating), or the loop
continues with the grown prompt. -/
inductive ProcOut where
  | halted (st : RuntimeState) (output : Except ExecErr OutputTextM)
      (calls : List ToolCall) (logs : List ToolCallLog)
  | next (st : RuntimeState) (msgs : List PromptMsg)
      (calls : List ToolCall) (logs : List ToolCallLog)

/-- `_build_tool_call` (its `registry.get` is performed by the caller in
this model): `requires_confirm = (spec.risk_level is not RiskLevel.SAFE)`,
with a fresh `new_call_id()`. -/
def build_tool_call (sid : String) (counter : Nat) (call : LLMToolCall)
    (spec : ToolSpec) : ToolCall :=
  { session_id := sid
    call_id := "call_" ++ toString counter
    tool := call.name
    args := call.arguments
    requires_confirm := spec.risk_level ≠ .safe }

/-- `for call in response.tool_calls: ...` — `_build_tool_call` (a
`KeyError` from `registry.get` propagates before the gateway is invoked),
then `ToolGateway.execute`; `ConfirmationRequired` snapshots the working
prompt into `_pending` and halts the turn; a normal result is persisted as
a tool message and appended to the prompt. -/
def processCalls (env : RuntimeEnv) (sid : String) (st : RuntimeState)
    (msgs : List PromptMsg) (acc : List ToolCall) (accLogs : List ToolCallLog) :
    List LLMToolCall → ProcOut
  | [] => .next st msgs acc accLogs
  | call :: rest =>
    match regGet env.gw.reg call.name with
    | none => .halted st (.error (.notRegistered call.name)) acc accLogs
    | some spec =>
      let tc : ToolCall := build_tool_call sid st.counter call spec
      let st := { st with counter := st.counter + 1 }
      let out := ToolGateway.execute env.gw tc
      match out.1 with
      | .error (.confirmationRequired name _reason) =>
        .halted { st with pending := some ⟨sid, tc, call.id, msgs⟩ }
          (.ok ⟨sid, "Confirm tool call " ++ name ++ "? (yes/no)"⟩)
          (acc ++ [tc]) (accLogs ++ out.2)
      | .error e => .halted st (.error e) (acc ++ [tc]) (accLogs ++ out.2)
      | .ok result =>
        let content := toolContentOf result
        let st := { st with store := addMsg st.store sid "tool" content env.now }
        processCalls env sid st (msgs ++ [.toolMsg call.id content])
          (acc ++ [tc]) (accLogs ++ out.2) rest

/-- `if response.content: self._state_store.add_message(...)` — persist the
assistant content when it is truthy (non-`None` and non-empty). -/
def persistAssistantContent (env : RuntimeEnv) (sid : String) (st : RuntimeState)
    (content : Option String) : RuntimeState :=
  match content with
  | some c =>
    if c ≠ "" then { st with store := addMsg st.store sid "assistant" c env.now }
    else st
  | none => st

/-- The `for _ in range(self._max_tool_steps)` loop body; exhausting the
range emits `"Tool loop exceeded max steps."`. -/
def llmLoop (env : RuntimeEnv) (sid : String) :
    Nat → RuntimeState → List PromptMsg → List ToolCall → List ToolCallLog → StepOut
  | 0, st, _msgs, calls, logs =>
    ⟨st, .ok ⟨sid, "Tool loop exceeded max steps."⟩, calls, logs⟩
  | steps + 1, st, msgs, calls, logs =>
    match env.llmChat msgs (toolSpecsForLLM env.gw.reg) with
    | .exn e => ⟨st, .ok ⟨sid, "LLM error: " ++ e⟩, calls, logs⟩
    | .ok resp =>
      if resp.tool_calls.isEmpty then
        let fin := finalizeLLMResponse env st sid resp
        ⟨fin.1, .ok fin.2, calls, logs⟩
      else
        let msgs := msgs ++ [.assistantCalls (resp.content.getD "") resp.raw_tool_calls]
        let st := persistAssistantContent env sid st resp.content
        match processCalls env sid st msgs calls logs resp.tool_calls with
        | .halted st' out calls' logs' => ⟨st', out, calls', logs'⟩
        | .next st' msgs' calls' logs' => llmLoop env sid steps st' msgs' calls' logs'

/-! ### Confirmation handling (`_handle_confirmation`) -/

def handleConfirmation (env : RuntimeEnv) (st : RuntimeState) (msg : InputTextM) : StepOut :=
  let decision := normDecision msg.text
  if decision = "y" ∨ decision = "yes" then
    match st.pending with
    | none => ⟨st, .ok ⟨msg.session_id, "No pending tool call."⟩, [], []⟩
    | some pending =>
      let st := { st with pending := none }
      let confirmed : ToolCall :=
        { session_id := pending.tool_call.session_id
          call_id := pending.tool_call.call_id
          tool := pending.tool_call.tool
          args := pending.tool_call.args
          requires_confirm := false }
      let out := ToolGateway.execute env.gw confirmed
      match out.1 with
      | .error e => ⟨st, .error e, [confirmed], out.2⟩
      | .ok result =>
        let tool_content := toolContentOf result
        let st := { st with store := addMsg st.store msg.session_id "tool" tool_content env.now }
        let pmsgs := pending.messages ++ [.toolMsg pending.llm_tool_call_id tool_content]
        if env.llmConfigured = false then
          ⟨st, .ok ⟨msg.session_id, tool_content⟩, [confirmed], out.2⟩
        else
          match env.llmChat pmsgs (toolSpecsForLLM env.gw.reg) with
          | .exn e => ⟨st, .ok ⟨msg.session_id, "LLM error: " ++ e⟩, [confirmed], out.2⟩
          | .ok resp =>
            let fin := finalizeLLMResponse env st msg.session_id resp
            ⟨fin.1, .ok fin.2, [confirmed], out.2⟩
  else if decision = "n" ∨ decision = "no" then
    ⟨{ st with pending := none }, .ok ⟨msg.session_id, "Cancelled tool call."⟩, [], []⟩
  else
    ⟨st, .ok ⟨msg.session_id, "Confirm with yes/no."⟩, [], []⟩

/-! ### Turn entry point (`handle_input_text`) -/

def handle_input_text (env : RuntimeEnv) (st : RuntimeState) (msg : InputTextM) : StepOut :=
  let st := { st with store := addMsg st.store msg.session_id "user" msg.text msg.ts }
  match st.pending with
  | some _ => handleConfirmation env st msg
  | none =>
    if env.llmConfigured = false then
      let reply := "Received: " ++ msg.text
      ⟨{ st with store := addMsg st.store msg.session_id "assistant" reply env.now },
       .ok ⟨msg.session_id, reply⟩, [], []⟩
    else
      llmLoop env msg.session_id env.maxToolSteps st (buildMessages env st msg.session_id) [] []

/-! ## Store lemmas -/

theorem list_messages_addMsg_self (store : List (String × List Msg)) (sid role content : String)
    (ts : Int) :
    list_messages (addMsg store sid role content ts) sid =
      list_messages store sid ++ [⟨role, content, ts⟩] := by
  induction store with
  | nil => simp [addMsg, list_messages]
  | cons kv rest ih =>
    obtain ⟨s, msgs⟩ := kv
    by_cases h : s = sid
    · simp [addMsg, list_messages, h]
    · simp [addMsg, list_messages, h, ih]

theorem list_messages_addMsg_ne (store : List (String × List Msg)) (sid sid' role content : String)
    (ts : Int) (h : sid' ≠ sid) :
    list_messages (addMsg store sid role content ts) sid' = list_messages store sid' := by
  induction store with
  | nil => simp [addMsg, list_messages, Ne.symm h]
  | cons kv rest ih =>
    obtain ⟨s, msgs⟩ := kv
    by_cases hs : s = sid
    · subst hs
      simp [addMsg, list_messages, Ne.symm h]
    · simp [addMsg, list_messages, hs, ih]

/-- `s'` extends `s`: every session's message list in `s'` is the one in `s`
followed by newer messages. -/
def StoreExt (s s' : List (String × List Msg)) : Prop :=
  ∀ sid, ∃ rest, list_messages s' sid = list_messages s sid ++ rest

theorem StoreExt.refl (s : List (String × List Msg)) : StoreExt s s :=
  fun _ => ⟨[], by simp⟩

theorem StoreExt.trans {a b c : List (String × List Msg)} (h1 : StoreExt a b)
    (h2 : StoreExt b c) : StoreExt a c := by
  intro sid
  obtain ⟨r1, e1⟩ := h1 sid
  obtain ⟨r2, e2⟩ := h2 sid
  exact ⟨r1 ++ r2, by rw [e2, e1, List.append_assoc]⟩

theorem StoreExt.addMsg (s : List (String × List Msg)) (sid role content : String) (ts : Int) :
    StoreExt s (addMsg s sid role content ts) := by
  intro sid'
  by_cases h : sid' = sid
  · subst h
    exact ⟨[⟨role, content, ts⟩], list_messages_addMsg_self ..⟩
  · exact ⟨[], by rw [list_messages_addMsg_ne _ _ _ _ _ _ h, List.append_nil]⟩

def ProcOut.stateOf : ProcOut → RuntimeState
  | .halted st _ _ _ => st
  | .next st _ _ _ => st

theorem processCalls_storeExt (env : RuntimeEnv) (sid : String) :
    ∀ (calls : List LLMToolCall) (st : RuntimeState) (msgs : List PromptMsg)
      (acc : List ToolCall) (accLogs : List ToolCallLog),
      StoreExt st.store (processCalls env sid st msgs acc accLogs calls).stateOf.store := by
  intro calls
  induction calls with
  | nil => intro st msgs acc accLogs; exact StoreExt.refl _
  | cons call rest ih =>
    intro st msgs acc accLogs
    simp only [processCalls]
    split
    · exact StoreExt.refl _
    · split
      · exact StoreExt.refl _
      · exact StoreExt.refl _
      · exact StoreExt.trans (StoreExt.addMsg _ _ _ _ _) (ih _ _ _ _)

theorem persistAssistant_storeExt (env : RuntimeEnv) (sid : String) (st : RuntimeState)
    (content : Option String) :
    StoreExt st.store (persistAssistantContent env sid st content).store := by
  rcases content with _ | c
  · exact StoreExt.refl _
  · simp only [persistAssistantContent]
    split
    · exact StoreExt.addMsg _ _ _ _ _
    · exact StoreExt.refl _

theorem llmLoop_storeExt (env : RuntimeEnv) (sid : String) :
    ∀ (fuel : Nat) (st : RuntimeState) (msgs : List PromptMsg)
      (calls : List ToolCall) (logs : List ToolCallLog),
      StoreExt st.store (llmLoop env sid fuel st msgs calls logs).state.store := by
  intro fuel
  induction fuel with
  | zero => intro st msgs calls logs; exact StoreExt.refl _
  | succ steps ih =>
    intro st msgs calls logs
    simp only [llmLoop]
    split
    · exact StoreExt.refl _
    · next resp hre =>
      split
      · simp only [finalizeLLMResponse]
        exact StoreExt.addMsg _ _ _ _ _
      · split
        · next a b c d heq =>
          have h := processCalls_storeExt env sid resp.tool_calls
            (persistAssistantContent env sid st resp.content)
            (msgs ++ [PromptMsg.assistantCalls (resp.content.getD "") resp.raw_tool_calls])
            calls logs
          rw [heq] at h
          simp only [ProcOut.stateOf] at h
          exact StoreExt.trans (persistAssistant_storeExt _ _ _ _) h
        · next a m c d heq =>
          have h := processCalls_storeExt env sid resp.tool_calls
            (persistAssistantContent env sid st resp.content)
            (msgs ++ [PromptMsg.assistantCalls (resp.content.getD "") resp.raw_tool_calls])
            calls logs
          rw [heq] at h
          simp only [ProcOut.stateOf] at h
          exact StoreExt.trans (persistAssistant_storeExt _ _ _ _)
            (StoreExt.trans h (ih a m c d))

theorem handleConfirmation_storeExt (env : RuntimeEnv) (st : RuntimeState) (msg : InputTextM) :
    StoreExt st.store (handleConfirmation env st msg).state.store := by
  simp only [handleConfirmation]
  split
  · split
    · exact StoreExt.refl _
    · split
      · exact StoreExt.refl _
      · split
        · exact StoreExt.addMsg _ _ _ _ _
        · split
          · exact StoreExt.addMsg _ _ _ _ _
          · simp only [finalizeLLMResponse]
            exact StoreExt.trans (StoreExt.addMsg _ _ _ _ _) (StoreExt.addMsg _ _ _ _ _)
  · split
    · exact StoreExt.refl _
    · exact StoreExt.refl _

theorem handle_input_text_storeExt (env : RuntimeEnv) (st : RuntimeState) (msg : InputTextM) :
    StoreExt (addMsg st.store msg.session_id "user" msg.text msg.ts)
      (handle_input_text env st msg).state.store := by
  simp only [handle_input_text]
  split
  · exact handleConfirmation_storeExt _ _ _
  · split
    · exact StoreExt.addMsg _ _ _ _ _
    · exact llmLoop_storeExt _ _ _ _ _ _ _

/-- C10: `handle_input_text` appends the incoming text to persisted history
as a user-role message first, unconditionally — in every branch (pending
confirmation, echo, LLM turn) the session's history after the call is the
old history, then the user message carrying the input's text and timestamp,
then whatever the rest of the turn appended. -/
theorem c10_theorem (env : RuntimeEnv) (st : RuntimeState) (msg : InputTextM) :
    ∃ rest, list_messages (handle_input_text env st msg).state.store msg.session_id =
      list_messages st.store msg.session_id ++ (⟨"user", msg.text, msg.ts⟩ : Msg) :: rest := by
  obtain ⟨rest, hrest⟩ := handle_input_text_storeExt env st msg msg.session_id
  exact ⟨rest, by rw [hrest, list_messages_addMsg_self, List.append_assoc]; rfl⟩

/-! ## C2 — bus delivery on handler failure -/

/-- C2 counterexample: two subscribers on one topic; the first handler
raises.  `InMemoryBus.publish` awaits handler 1, whose exception propagates
(`for handler in handlers: await handler(message)` has no `try`), so
handler 2 is never invoked — contradicting the claim that remaining
handlers are still invoked and the error merely logged. -/
theorem c2_counterexample :
    InMemoryBus.publish
        (fun i _ => if i = 1 then .error "boom" else .ok ())
        [⟨1⟩, ⟨2⟩] "hello"
      = ([1], some "boom") ∧
    2 ∉ (InMemoryBus.publish
        (fun i _ => if i = 1 then .error "boom" else .ok ())
        [⟨1⟩, ⟨2⟩] "hello").1 := by
  constructor
  · rfl
  · intro hmem
    have : (InMemoryBus.publish
        (fun i _ => if i = 1 then .error "boom" else .ok ())
        [⟨1⟩, ⟨2⟩] "hello").1 = [1] := rfl
    rw [this] at hmem
    simp at hmem

/-- C2 amended: handlers fire in subscription order, each fully awaited
before the next, but only up to and including the first handler that
raises; that handler's exception propagates to the publisher and the
remaining handlers are not invoked (no error is logged and delivery does
not continue). -/
theorem c2_theorem (hsem : Nat → String → Except String Unit)
    (handlers : List BusHandler) (message : String) :
    ((∀ h ∈ handlers, hsem h.id message = .ok ()) →
      InMemoryBus.publish hsem handlers message = (handlers.map (·.id), none)) ∧
    (∀ (pre : List BusHandler) (h : BusHandler) (post : List BusHandler) (e : String),
      handlers = pre ++ h :: post →
      (∀ g ∈ pre, hsem g.id message = .ok ()) →
      hsem h.id message = .error e →
      InMemoryBus.publish hsem handlers message = (pre.map (·.id) ++ [h.id], some e)) := by
  constructor
  · intro hall
    induction handlers with
    | nil => rfl
    | cons g rest ih =>
      have hg : hsem g.id message = .ok () := hall g (List.mem_cons_self ..)
      have hr := ih (fun x hx => hall x (List.mem_cons_of_mem _ hx))
      simp only [InMemoryBus.publish, hg, hr, List.map_cons]
  · intro pre
    induction pre generalizing handlers with
    | nil =>
      intro h post e hsplit hpre hfail
      subst hsplit
      simp only [InMemoryBus.publish, hfail, List.map_nil, List.nil_append]
    | cons g rest ih =>
      intro h post e hsplit hpre hfail
      subst hsplit
      have hg : hsem g.id message = .ok () := hpre g (List.mem_cons_self ..)
      have hr := ih (rest ++ h :: post) h post e rfl
        (fun x hx => hpre x (List.mem_cons_of_mem _ hx)) hfail
      simp only [List.cons_append, InMemoryBus.publish, hg, List.append_eq, hr,
        List.map_cons]

/-- C2 witness: with no failing handler all subscribers run in order; with
the first of two handlers failing, publish stops after it. -/
theorem c2_witness :
    InMemoryBus.publish (fun _ _ => .ok ()) [⟨1⟩, ⟨2⟩] "m" = ([1, 2], none) ∧
    InMemoryBus.publish (fun i _ => if i = 1 then .error "e" else .ok ())
      [⟨1⟩, ⟨2⟩] "m" = ([1], some "e") :=
  ⟨(c2_theorem (fun _ _ => .ok ()) [⟨1⟩, ⟨2⟩] "m").1 (fun _ _ => rfl),
   (c2_theorem (fun i _ => if i = 1 then .error "e" else .ok ()) [⟨1⟩, ⟨2⟩] "m").2
     [] ⟨1⟩ [⟨2⟩] "e" rfl (by intro g hg; simp at hg) rfl⟩

/-! ## C7 — filesystem sandbox -/

theorem normalizeComps_append (ys : List String) :
    ∀ (xs : List String) (acc : List String),
      normalizeComps acc (xs ++ ys) = normalizeComps (normalizeComps acc xs) ys := by
  intro xs
  induction xs with
  | nil => intro acc; rfl
  | cons x rest ih =>
    intro acc
    simp only [List.cons_append, normalizeComps]
    split_ifs <;> exact ih _

theorem normalizeComps_clean :
    ∀ (xs : List String) (acc : List String),
      (∀ c ∈ xs, c ≠ ".." ∧ c ≠ ".") → normalizeComps acc xs = acc ++ xs := by
  intro xs
  induction xs with
  | nil => intro acc _; simp [normalizeComps]
  | cons x rest ih =>
    intro acc hclean
    have hx := hclean x (List.mem_cons_self ..)
    simp only [normalizeComps, hx.1, hx.2, if_false]
    rw [ih _ (fun c hc => hclean c (List.mem_cons_of_mem _ hc))]
    simp

theorem normalizeComps_output_clean :
    ∀ (xs : List String) (acc : List String),
      (∀ c ∈ acc, c ≠ ".." ∧ c ≠ ".") →
      ∀ c ∈ normalizeComps acc xs, c ≠ ".." ∧ c ≠ "." := by
  intro xs
  induction xs with
  | nil => intro acc hacc; exact hacc
  | cons x rest ih =>
    intro acc hacc
    simp only [normalizeComps]
    split_ifs with h1 h2
    · exact ih _ (fun c hc => hacc c (List.dropLast_subset _ hc))
    · exact ih _ hacc
    · refine ih _ ?_
      intro c hc
      rcases List.mem_append.mp hc with hc | hc
      · exact hacc c hc
      · simp at hc
        subst hc
        exact ⟨h1, h2⟩

theorem resolve_path_ok_cases (ws : List String) (u : UserPath) (p : List String)
    (hok : resolve_path ws u = .ok p) :
    p = normalizeComps [] ws ∨ isStrictAncestor (normalizeComps [] ws) p = true := by
  simp only [resolve_path] at hok
  by_cases hceq : normalizeComps []
      (if u.absolute = true then u.comps else normalizeComps [] ws ++ u.comps) =
      normalizeComps [] ws
  · rw [if_pos hceq] at hok
    left
    rw [← Except.ok.inj hok]
    exact hceq
  · rw [if_neg hceq] at hok
    by_cases hanc2 : isStrictAncestor (normalizeComps [] ws)
        (normalizeComps []
          (if u.absolute = true then u.comps else normalizeComps [] ws ++ u.comps)) = true
    · rw [if_pos hanc2] at hok
      right
      rw [← Except.ok.inj hok]
      exact hanc2
    · rw [if_neg hanc2] at hok
      cases hok

/-- C7: the filesystem tools resolve user paths against the resolved
workspace root and accept exactly the root itself or paths the root
strictly contains, rejecting everything else with
`ValueError("Path escapes workspace")`; in particular, for any workspace
whose resolved root is not the filesystem root and is not itself named
`secret.txt`, a read of `"../secret.txt"` fails with that error before any
file I/O (the result does not depend on the filesystem contents). -/
theorem c7_theorem (ws : List String) (fs fs' : List String → Option String)
    (h1 : normalizeComps [] ws ≠ [])
    (h2 : (normalizeComps [] ws).getLast? ≠ some "secret.txt") :
    fs_read_text fs ws ⟨false, ["..", "secret.txt"]⟩ = .error "Path escapes workspace" ∧
    fs_read_text fs ws ⟨false, ["..", "secret.txt"]⟩ =
      fs_read_text fs' ws ⟨false, ["..", "secret.txt"]⟩ ∧
    ∀ (u : UserPath) (p : List String), resolve_path ws u = .ok p →
      p = normalizeComps [] ws ∨ isStrictAncestor (normalizeComps [] ws) p = true := by
  have hroot_clean : ∀ c ∈ normalizeComps [] ws, c ≠ ".." ∧ c ≠ "." :=
    normalizeComps_output_clean ws [] (by simp)
  have hcand : normalizeComps [] (normalizeComps [] ws ++ ["..", "secret.txt"]) =
      (normalizeComps [] ws).dropLast ++ ["secret.txt"] := by
    rw [normalizeComps_append]
    rw [normalizeComps_clean _ _ hroot_clean]
    simp [normalizeComps]
  have hne : (normalizeComps [] ws).dropLast ++ ["secret.txt"] ≠ normalizeComps [] ws := by
    intro heq
    apply h2
    rw [← heq, List.getLast?_concat]
  have hanc : isStrictAncestor (normalizeComps [] ws)
      ((normalizeComps [] ws).dropLast ++ ["secret.txt"]) = false := by
    have hpos : 0 < (normalizeComps [] ws).length := List.length_pos.mpr h1
    have hlen : ((normalizeComps [] ws).dropLast ++ ["secret.txt"]).length =
        (normalizeComps [] ws).length := by
      simp only [List.length_append, List.length_dropLast, List.length_cons,
        List.length_nil]
      omega
    simp [isStrictAncestor, hlen]
  have hresolve : resolve_path ws ⟨false, ["..", "secret.txt"]⟩ =
      .error "Path escapes workspace" := by
    simp [resolve_path, hcand, hne, hanc]
  refine ⟨?_, ?_, ?_⟩
  · simp only [fs_read_text, hresolve]
  · simp only [fs_read_text, hresolve]
  · intro u p hok
    exact resolve_path_ok_cases ws u p hok

/-- C7 witness: a concrete three-component workspace rejects
`"../secret.txt"` with the sandbox error for every filesystem. -/
theorem c7_witness :
    fs_read_text (fun _ => none) ["home", "user", "ws"] ⟨false, ["..", "secret.txt"]⟩ =
      .error "Path escapes workspace" :=
  ( c7_theorem ["home", "user", "ws"] (fun _ => none) (fun _ => some "x")
    (by decide) (by decide)).1

/-! ## C9 — schedule monotonicity for RRULE schedules -/

/-- C9: for every `RRULE:` schedule and every timestamp `t`, `next_run_ts`
returns either no next occurrence or a timestamp strictly greater than `t`.
The `dateutil` recurrence engine is a parameter, constrained by its
documented contract: `after(dt, inc=False)` is strictly after `dt`, and
occurrences generated from the whole-second `dtstart` the code passes fall
on whole seconds (so the `int()` truncation is exact). -/
theorem c9_theorem (env : SchedEnv) (schedule : String) (t : Int)
    (hrr : isRRule (pyStrip schedule) = true)
    (hafter : ∀ s u q, env.rruleAfter s u = some q → (u : ℚ) < q)
    (hwhole : ∀ s u q, env.rruleAfter s u = some q → q.den = 1) :
    next_run_ts env schedule t = .ok none ∨
      ∃ u, next_run_ts env schedule t = .ok (some u) ∧ t < u := by
  simp only [next_run_ts, hrr, if_true]
  rcases hq : env.rruleAfter (pyStrip schedule) t with _ | q
  · left; rfl
  · right
    refine ⟨pyInt q, rfl, ?_⟩
    have hlt := hafter _ _ _ hq
    have hden := hwhole _ _ _ hq
    have hqnum : (q.num : ℚ) = q := by
      conv_rhs => rw [← Rat.num_div_den q]
      rw [hden]
      norm_num
    have : (t : ℚ) < (q.num : ℚ) := by rw [hqnum]; exact hlt
    have htn : t < q.num := by exact_mod_cast this
    simpa [pyInt, hden] using htn

def c9Env : SchedEnv :=
  { rruleAfter := fun _ u => some ((u + 1 : Int) : ℚ)
    parseIso := fun _ => none }

/-- C9 witness: a concrete RRULE schedule with a recurrence engine meeting
the contract yields a strictly later next run. -/
theorem c9_witness :
    (next_run_ts c9Env "RRULE:FREQ=DAILY" 0 = .ok none ∨
      ∃ u, next_run_ts c9Env "RRULE:FREQ=DAILY" 0 = .ok (some u) ∧ 0 < u) ∧
    next_run_ts c9Env "RRULE:FREQ=DAILY" 0 = .ok (some 1) :=
  ⟨c9_theorem c9Env "RRULE:FREQ=DAILY" 0 (by decide)
      (fun s u q h => by
        have h' : ((u + 1 : Int) : ℚ) = q := Option.some.inj h
        rw [← h']
        push_cast
        linarith)
      (fun s u q h => by
        have h' : ((u + 1 : Int) : ℚ) = q := Option.some.inj h
        rw [← h']
        exact Rat.den_intCast _),
   by rfl⟩

/-! ## C1 — gateway schema validation -/

def c1Spec : ToolSpec :=
  { name := "web.search"
    description := "Search the web for a query"
    args_schema := { props := [("query", .string)], required := ["query"] }
    risk_level := .safe
    timeout_ms := 10000 }

def c1Env : GatewayEnv :=
  { reg := [("web.search", c1Spec)]
    policy := { confirm_tools := [], deny_tools := [] }
    hsem := fun _ _ => .ok (some (.arr []))
    elapsedMs := 5
    now := 1700000000
    dbConfigured := true }

def c1BadCall : ToolCall :=
  { session_id := "s1", call_id := "call_0", tool := "web.search",
    args := .obj [], requires_confirm := false }

/-- C1 counterexample: a registered tool with a required `query` property
and args `{}` violating the schema.  `validate_jsonschema` raises and the
exception propagates out of `ToolGateway.execute` (the call sits outside
the `try`), so no `ToolResult` with `ok=false` is returned, contrary to
the claim. -/
theorem c1_counterexample :
    (ToolGateway.execute c1Env c1BadCall).1 = .error .validationError ∧
    ∀ r : ToolResult, (ToolGateway.execute c1Env c1BadCall).1 ≠ .ok r := by
  constructor
  · rfl
  · intro r hr
    have h : (ToolGateway.execute c1Env c1BadCall).1 = .error .validationError := rfl
    rw [h] at hr
    cases hr

/-- C1 amended: for a registered tool whose call passes policy, args that
violate `args_schema` make `ToolGateway.execute` raise the
`jsonschema.ValidationError` (no `ToolResult` is returned, nothing is
logged), and the handler is never invoked — the outcome is independent of
the handler semantics; args that satisfy the schema are never rejected by
the validator: execution proceeds and returns a `ToolResult`. -/
theorem c1_theorem (env : GatewayEnv) (call : ToolCall) (spec : ToolSpec)
    (hreg : regGet env.reg call.tool = some spec)
    (hdeny : (env.policy.evaluate spec.name spec.risk_level).decision ≠ .deny)
    (hconf : ¬((env.policy.evaluate spec.name spec.risk_level).decision = .confirm ∧
      call.requires_confirm)) :
    (validate_jsonschema spec.args_schema call.args = false →
      ToolGateway.execute env call = (.error .validationError, []) ∧
      ∀ h2 : String → Json → HandlerOutcome,
        ToolGateway.execute { env with hsem := h2 } call = ToolGateway.execute env call) ∧
    (validate_jsonschema spec.args_schema call.args = true →
      ∃ r, (ToolGateway.execute env call).1 = .ok r) := by
  constructor
  · intro hbad
    constructor
    · simp only [ToolGateway.execute, hreg, hdeny, if_false, hconf, hbad, if_true]
    · intro h2
      simp only [ToolGateway.execute, hreg, hdeny, if_false, hconf, hbad, if_true]
  · intro hgood
    simp only [ToolGateway.execute, hreg, hdeny, if_false, hconf, hgood]
    rcases env.hsem call.tool call.args with v | m
    all_goals simp

def c1GoodCall : ToolCall :=
  { session_id := "s1", call_id := "call_1", tool := "web.search",
    args := .obj [("query", .str "x")], requires_confirm := false }

/-- C1 witness: the amended theorem applied at concrete violating and
satisfying args. -/
theorem c1_witness :
    (ToolGateway.execute c1Env c1BadCall = (.error .validationError, []) ∧
      ∀ h2 : String → Json → HandlerOutcome,
        ToolGateway.execute { c1Env with hsem := h2 } c1BadCall =
          ToolGateway.execute c1Env c1BadCall) ∧
    (∃ r, (ToolGateway.execute c1Env c1GoodCall).1 = .ok r) :=
  ⟨(c1_theorem c1Env c1BadCall c1Spec rfl (by decide) (by decide)).1 rfl,
   (c1_theorem c1Env c1GoodCall c1Spec rfl (by decide) (by decide)).2 rfl⟩

/-! ## C4 — tool timeout -/

def c4Spec : ToolSpec :=
  { name := "slow.op"
    description := "A slow operation"
    args_schema := { props := [], required := [] }
    risk_level := .safe
    timeout_ms := 1000 }

def c4Env : GatewayEnv :=
  { reg := [("slow.op", c4Spec)]
    policy := { confirm_tools := [], deny_tools := [] }
    hsem := fun _ _ => .timeout
    elapsedMs := 1001
    now := 1700000000
    dbConfigured := false }

def c4Call : ToolCall :=
  { session_id := "s1", call_id := "call_7", tool := "slow.op",
    args := .obj [], requires_confirm := false }

/-- C4 counterexample: a handler exceeding its deadline yields a
`ToolResult` whose error is `str(TimeoutError())` — the empty string — not
`"timeout"`: `asyncio.wait_for` raises `TimeoutError`, the gateway's
`except Exception` catches it and stores `str(exc)`, which is `""`. -/
theorem c4_counterexample :
    (ToolGateway.execute c4Env c4Call).1 =
      .ok { call_id := "call_7", ok := false, result := none,
            error := some "", elapsed_ms := 1001 } ∧
    some "" ≠ some "timeout" := by
  exact ⟨rfl, by decide⟩

/-- C4 amended: a handler that exceeds `timeout_ms` produces a returned
`ToolResult` with `ok=false`, a measured `elapsed_ms`, and `error` equal to
the empty string (`str` of the caught `TimeoutError`), not `"timeout"`;
and the agent loop continues with any such returned result — dispatching a
call whose gateway outcome is a returned `ToolResult` persists the tool
message and proceeds to the remaining calls rather than halting the
turn. -/
theorem c4_theorem (env : GatewayEnv) (call : ToolCall) (spec : ToolSpec)
    (hreg : regGet env.reg call.tool = some spec)
    (hdeny : (env.policy.evaluate spec.name spec.risk_level).decision ≠ .deny)
    (hconf : ¬((env.policy.evaluate spec.name spec.risk_level).decision = .confirm ∧
      call.requires_confirm))
    (hval : validate_jsonschema spec.args_schema call.args = true)
    (ht : env.hsem call.tool call.args = .timeout) :
    (ToolGateway.execute env call).1 =
      .ok { call_id := call.call_id, ok := false, result := none,
            error := some "", elapsed_ms := env.elapsedMs } ∧
    ∀ (renv : RuntimeEnv) (sid : String) (st : RuntimeState) (msgs : List PromptMsg)
      (acc : List ToolCall) (lgs : List ToolCallLog) (lcall : LLMToolCall)
      (rest : List LLMToolCall) (spec2 : ToolSpec) (r : ToolResult),
      regGet renv.gw.reg lcall.name = some spec2 →
      (ToolGateway.execute renv.gw (build_tool_call sid st.counter lcall spec2)).1 = .ok r →
      processCalls renv sid st msgs acc lgs (lcall :: rest) =
        processCalls renv sid
          { st with store := addMsg st.store sid "tool" (toolContentOf r) renv.now,
                    counter := st.counter + 1 }
          (msgs ++ [.toolMsg lcall.id (toolContentOf r)])
          (acc ++ [build_tool_call sid st.counter lcall spec2])
          (lgs ++ (ToolGateway.execute renv.gw (build_tool_call sid st.counter lcall spec2)).2)
          rest := by
  constructor
  · simp only [ToolGateway.execute, hreg, hdeny, if_false, hconf, hval, ht]
    simp
  · intro renv sid st msgs acc lgs lcall rest spec2 r hreg2 hok
    simp only [processCalls, hreg2]
    rw [show (ToolGateway.execute renv.gw (build_tool_call sid st.counter lcall spec2)) =
      ((ToolGateway.execute renv.gw (build_tool_call sid st.counter lcall spec2)).1,
       (ToolGateway.execute renv.gw (build_tool_call sid st.counter lcall spec2)).2) from rfl,
      hok]

/-- C4 witness: the amended theorem at a concrete timing-out handler. -/
theorem c4_witness :
    (ToolGateway.execute c4Env c4Call).1 =
      .ok { call_id := "call_7", ok := false, result := none,
            error := some "", elapsed_ms := 1001 } :=
  (c4_theorem c4Env c4Call c4Spec rfl (by decide) (by decide) rfl rfl).1

/-! ## C5 — audit logging coverage -/

def c5Spec : ToolSpec :=
  { name := "shell.exec"
    description := "Run a shell command"
    args_schema := { props := [("cmd", .string)], required := ["cmd"] }
    risk_level := .dangerous
    timeout_ms := 5000 }

def c5Env : GatewayEnv :=
  { reg := [("shell.exec", c5Spec)]
    policy := { confirm_tools := [], deny_tools := [] }
    hsem := fun _ _ => .ok (some (.str "out"))
    elapsedMs := 3
    now := 1700000000
    dbConfigured := true }

def c5Call : ToolCall :=
  { session_id := "s1", call_id := "call_9", tool := "shell.exec",
    args := .obj [("cmd", .str "ls")], requires_confirm := true }

/-- C5 counterexample: a policy-denied call returns a `ToolResult`
(`ok=false`) but `ToolGateway.execute` returns before `_log_tool_call`, so
no `ToolCallLog` is written even though the database is configured —
contradicting the claim that every returned result, including a policy
deny, is logged. -/
theorem c5_counterexample :
    (ToolGateway.execute c5Env c5Call).1 =
      .ok { call_id := "call_9", ok := false, result := none,
            error := some "Tool is dangerous by default", elapsed_ms := 0 } ∧
    (ToolGateway.execute c5Env c5Call).2 = [] :=
  ⟨rfl, rfl⟩

/-- C5 amended: a `ToolCallLog` with redacted args and result is written
exactly for the handler-path outcomes (success, handler exception,
timeout) when a database is configured; the policy-deny result returns
without logging, and the `ConfirmationRequired` raise records no call. -/
theorem c5_theorem (env : GatewayEnv) (call : ToolCall) (spec : ToolSpec)
    (hreg : regGet env.reg call.tool = some spec) :
    ((env.policy.evaluate spec.name spec.risk_level).decision = .deny →
      ToolGateway.execute env call =
        (.ok { call_id := call.call_id, ok := false, result := none,
               error := some (env.policy.evaluate spec.name spec.risk_level).reason,
               elapsed_ms := 0 }, [])) ∧
    ((env.policy.evaluate spec.name spec.risk_level).decision = .confirm →
      call.requires_confirm = true →
      ToolGateway.execute env call =
        (.error (.confirmationRequired spec.name
          (env.policy.evaluate spec.name spec.risk_level).reason), [])) ∧
    ((env.policy.evaluate spec.name spec.risk_level).decision ≠ .deny →
      ¬((env.policy.evaluate spec.name spec.risk_level).decision = .confirm ∧
        call.requires_confirm) →
      validate_jsonschema spec.args_schema call.args = true →
      env.dbConfigured = true →
      ∃ r, ToolGateway.execute env call = (.ok r, [mkLog env call r])) := by
  refine ⟨?_, ?_, ?_⟩
  · intro hd
    simp [ToolGateway.execute, hreg, hd]
  · intro hc hrc
    have hnd : (env.policy.evaluate spec.name spec.risk_level).decision ≠ .deny := by
      rw [hc]; decide
    simp [ToolGateway.execute, hreg, hnd, hc, hrc]
  · intro hnd hnc hval hdb
    simp only [ToolGateway.execute, hreg, hnd, if_false, hnc, hval]
    rcases env.hsem call.tool call.args with v | m
    all_goals simp [hdb]

/-- C5 witness: the amended theorem at a concrete denied call (no log) and
a concrete allowed call (one redacted log row). -/
theorem c5_witness :
    ToolGateway.execute c5Env c5Call =
      (.ok { call_id := "call_9", ok := false, result := none,
             error := some (c5Env.policy.evaluate c5Spec.name c5Spec.risk_level).reason,
             elapsed_ms := 0 }, []) ∧
    ∃ r, ToolGateway.execute c1Env c1GoodCall = (.ok r, [mkLog c1Env c1GoodCall r]) :=
  ⟨(c5_theorem c5Env c5Call c5Spec rfl).1 (by decide),
   (c5_theorem c1Env c1GoodCall c1Spec rfl).2.2 (by decide) (by decide) rfl rfl⟩

/-! ## C6 — pending-confirmation exclusivity and resolution -/

/-- C6: the runtime stores at most one pending confirmation (the
`_pending : PendingToolCall | None` slot, an `Option` in the model), and a
user input received while one is pending always leaves a well-defined
state: after `y`/`yes` the slot is cleared and the rebuilt call (with
`requires_confirm=false`) is executed through the gateway; after `n`/`no`
the slot is cleared, nothing is executed and `"Cancelled tool call."` is
emitted; after any other text the slot still holds the same pending
confirmation, nothing is executed and `"Confirm with yes/no."` is
emitted. -/
theorem c6_theorem (env : RuntimeEnv) (st : RuntimeState) (msg : InputTextM)
    (p : PendingToolCall) (hp : st.pending = some p) :
    ((normDecision msg.text = "y" ∨ normDecision msg.text = "yes") →
      (handle_input_text env st msg).state.pending = none ∧
      (handle_input_text env st msg).gwCalls =
        [{ p.tool_call with requires_confirm := false }]) ∧
    ((normDecision msg.text = "n" ∨ normDecision msg.text = "no") →
      (handle_input_text env st msg).state.pending = none ∧
      (handle_input_text env st msg).output = .ok ⟨msg.session_id, "Cancelled tool call."⟩ ∧
      (handle_input_text env st msg).gwCalls = []) ∧
    (¬(normDecision msg.text = "y" ∨ normDecision msg.text = "yes") →
      ¬(normDecision msg.text = "n" ∨ normDecision msg.text = "no") →
      (handle_input_text env st msg).state.pending = some p ∧
      (handle_input_text env st msg).output = .ok ⟨msg.session_id, "Confirm with yes/no."⟩ ∧
      (handle_input_text env st msg).gwCalls = []) := by
  have hyesno : ∀ P : StepOut → Prop,
      (P (handleConfirmation env
        { st with store := addMsg st.store msg.session_id "user" msg.text msg.ts } msg)) →
      P (handle_input_text env st msg) := by
    intro P hP
    simp only [handle_input_text, hp] at hP ⊢
    exact hP
  refine ⟨?_, ?_, ?_⟩
  · intro hyes
    refine hyesno (fun r => r.state.pending = none ∧
      r.gwCalls = [{ p.tool_call with requires_confirm := false }]) ?_
    simp only [handleConfirmation, hp, if_pos hyes]
    split
    · exact ⟨by trivial, by trivial⟩
    · split
      · exact ⟨by trivial, by trivial⟩
      · split
        · exact ⟨by trivial, by trivial⟩
        · exact ⟨by trivial, by trivial⟩
  · intro hno
    have hnyes : ¬(normDecision msg.text = "y" ∨ normDecision msg.text = "yes") := by
      rcases hno with h | h <;> rw [h] <;> decide
    refine hyesno (fun r => r.state.pending = none ∧
      r.output = .ok ⟨msg.session_id, "Cancelled tool call."⟩ ∧ r.gwCalls = []) ?_
    simp only [handleConfirmation, if_neg hnyes, if_pos hno]
    exact ⟨by trivial, by trivial, by trivial⟩
  · intro hnyes hnno
    refine hyesno (fun r => r.state.pending = some p ∧
      r.output = .ok ⟨msg.session_id, "Confirm with yes/no."⟩ ∧ r.gwCalls = []) ?_
    simp only [handleConfirmation, if_neg hnyes, if_neg hnno]
    exact ⟨hp, by trivial, by trivial⟩

def c6Pending : PendingToolCall :=
  { session_id := "s1"
    tool_call := { session_id := "s1", call_id := "call_0", tool := "fs.write",
                   args := .obj [], requires_confirm := true }
    llm_tool_call_id := "c1"
    messages := [] }

def c6Env : RuntimeEnv :=
  { gw := c1Env
    llmConfigured := false
    llmChat := fun _ _ => .exn "not wired"
    maxToolSteps := 3
    systemPrompt := ""
    toolPrompt := ""
    now := 10 }

def c6St : RuntimeState :=
  { store := [], pending := some c6Pending, counter := 1 }

/-- C6 witness: an unclear reply while a confirmation is pending re-prompts
and leaves the pending slot untouched. -/
theorem c6_witness :
    (handle_input_text c6Env c6St ⟨"s1", "maybe", 1⟩).state.pending = some c6Pending ∧
    (handle_input_text c6Env c6St ⟨"s1", "maybe", 1⟩).output =
      .ok ⟨"s1", "Confirm with yes/no."⟩ ∧
    (handle_input_text c6Env c6St ⟨"s1", "maybe", 1⟩).gwCalls = [] :=
  (c6_theorem c6Env c6St ⟨"s1", "maybe", 1⟩ c6Pending rfl).2.2 (by decide) (by decide)

/-! ## C3 — confirmation accept path -/

def c3Spec : ToolSpec :=
  { name := "fs.write"
    description := "Write a text file to the workspace"
    args_schema := { props := [("path", .string), ("content", .string)],
                     required := ["path", "content"] }
    risk_level := .confirm
    timeout_ms := 2000 }

def c3Gw : GatewayEnv :=
  { reg := [("fs.write", c3Spec)]
    policy := { confirm_tools := [], deny_tools := [] }
    hsem := fun _ _ => .ok (some (.obj [("ok", .str "true")]))
    elapsedMs := 2
    now := 99
    dbConfigured := false }

def c3Resp : LLMResponse :=
  { content := some "done"
    tool_calls := [{ id := "c2", name := "fs.write",
                     arguments := .obj [("path", .str "a"), ("content", .str "b")] }]
    raw_tool_calls := [] }

def c3Env : RuntimeEnv :=
  { gw := c3Gw
    llmConfigured := true
    llmChat := fun _ _ => .ok c3Resp
    maxToolSteps := 3
    systemPrompt := ""
    toolPrompt := ""
    now := 99 }

def c3Pending : PendingToolCall :=
  { session_id := "s1"
    tool_call := { session_id := "s1", call_id := "call_0", tool := "fs.write",
                   args := .obj [("path", .str "a"), ("content", .str "b")],
                   requires_confirm := true }
    llm_tool_call_id := "c1"
    messages := [] }

def c3St : RuntimeState :=
  { store := [], pending := some c3Pending, counter := 1 }

/-- C3 counterexample: the user answers `yes`; the follow-up LLM response
contains a tool call, yet the gateway trace holds exactly the one
confirmed call — the runtime finalizes the follow-up response's content
instead of re-entering the tool loop, so the follow-up tool calls are
ignored, contrary to the claim that they are dispatched again. -/
theorem c3_counterexample :
    c3Resp.tool_calls ≠ [] ∧
    (∀ m t, c3Env.llmChat m t = .ok c3Resp) ∧
    (handle_input_text c3Env c3St ⟨"s1", "yes", 5⟩).gwCalls =
      [{ c3Pending.tool_call with requires_confirm := false }] ∧
    (handle_input_text c3Env c3St ⟨"s1", "yes", 5⟩).output = .ok ⟨"s1", "done"⟩ ∧
    (handle_input_text c3Env c3St ⟨"s1", "yes", 5⟩).state.pending = none :=
  ⟨List.cons_ne_nil _ _, fun _ _ => rfl, rfl, rfl, rfl⟩

/-- C3 amended: on a `yes` confirmation the runtime clears the pending
slot, rebuilds the `ToolCall` with `requires_confirm=false` and executes
exactly it through the gateway, appends the tool message to persisted
history and to the snapshotted prompt, and then makes a single follow-up
LLM call with that snapshotted prompt whose response is finalized as the
assistant reply — any tool calls in the follow-up response are not
dispatched (the loop is not re-entered). -/
theorem c3_theorem (env : RuntimeEnv) (st : RuntimeState) (msg : InputTextM)
    (p : PendingToolCall) (r : ToolResult) (resp : LLMResponse)
    (hp : st.pending = some p)
    (hyes : normDecision msg.text = "y" ∨ normDecision msg.text = "yes")
    (hcfg : env.llmConfigured = true)
    (hex : (ToolGateway.execute env.gw { p.tool_call with requires_confirm := false }).1 =
      .ok r)
    (hchat : env.llmChat
        (p.messages ++ [.toolMsg p.llm_tool_call_id (toolContentOf r)])
        (toolSpecsForLLM env.gw.reg) = .ok resp) :
    (handle_input_text env st msg).state.pending = none ∧
    (handle_input_text env st msg).gwCalls =
      [{ p.tool_call with requires_confirm := false }] ∧
    list_messages (handle_input_text env st msg).state.store msg.session_id =
      list_messages st.store msg.session_id ++
        [⟨"user", msg.text, msg.ts⟩, ⟨"tool", toolContentOf r, env.now⟩,
         ⟨"assistant", finalizeContent resp.content, env.now⟩] ∧
    (handle_input_text env st msg).output =
      .ok ⟨msg.session_id, finalizeContent resp.content⟩ := by
  have hstep : handle_input_text env st msg =
      handleConfirmation env
        { st with store := addMsg st.store msg.session_id "user" msg.text msg.ts } msg := by
    simp only [handle_input_text, hp]
  rw [hstep]
  simp only [handleConfirmation, hp, if_pos hyes, hex, hchat, hcfg]
  rw [if_neg (by simp)]
  simp only [hchat, finalizeLLMResponse]
  refine ⟨by trivial, by trivial, ?_, by trivial⟩
  simp only [list_messages_addMsg_self, List.append_assoc, List.cons_append,
    List.nil_append]

def c3Result : ToolResult :=
  { call_id := "call_0", ok := true
    result := some (.obj [("data", .obj [("ok", .str "true")])])
    error := none, elapsed_ms := 2 }

/-- C3 witness: the amended theorem at the concrete confirm-accept run. -/
theorem c3_witness :
    (handle_input_text c3Env c3St ⟨"s1", "yes", 5⟩).state.pending = none ∧
    (handle_input_text c3Env c3St ⟨"s1", "yes", 5⟩).gwCalls =
      [{ c3Pending.tool_call with requires_confirm := false }] ∧
    list_messages (handle_input_text c3Env c3St ⟨"s1", "yes", 5⟩).state.store "s1" =
      list_messages c3St.store "s1" ++
        [⟨"user", "yes", 5⟩, ⟨"tool", toolContentOf c3Result, 99⟩,
         ⟨"assistant", finalizeContent c3Resp.content, 99⟩] ∧
    (handle_input_text c3Env c3St ⟨"s1", "yes", 5⟩).output =
      .ok ⟨"s1", finalizeContent c3Resp.content⟩ :=
  c3_theorem c3Env c3St ⟨"s1", "yes", 5⟩ c3Pending c3Result c3Resp
    rfl (Or.inr rfl) rfl rfl rfl

/-! ## C8 — redaction idempotence

The proof goes through an existential characterisation of the two regex
matchers: a match exists at a position iff the string decomposes there into
class-constrained segments.  Both replacement texts contain the bracket
characters `[` and `]`, which lie outside every character class of both
patterns, and `=` is outside both email classes; consequently no match can
overlap a replacement, and the leftmost-scan structure of `re.sub` leaves
no match in its output. -/

theorem isLocalChar_props {c : Char} (h : isLocalChar c = true) :
    c ≠ '[' ∧ c ≠ ']' ∧ c ≠ '@' ∧ c ≠ '=' := by
  simp only [isLocalChar, decide_eq_true_eq] at h
  refine ⟨?_, ?_, ?_, ?_⟩ <;> intro he <;> subst he <;> simp at h

theorem isDomainChar_local {c : Char} (h : isDomainChar c = true) :
    isLocalChar c = true := by
  simp only [isDomainChar, decide_eq_true_eq] at h
  simp only [isLocalChar, decide_eq_true_eq]
  omega

theorem isAsciiAlpha_domain {c : Char} (h : isAsciiAlpha c = true) :
    isDomainChar c = true := by
  simp only [isAsciiAlpha, decide_eq_true_eq] at h
  simp only [isDomainChar, decide_eq_true_eq]
  omega

theorem isValueChar_props {c : Char} (h : isValueChar c = true) :
    c ≠ '[' ∧ c ≠ ']' ∧ c ≠ '=' := by
  simp only [isValueChar, decide_eq_true_eq] at h
  refine ⟨?_, ?_, ?_⟩ <;> intro he <;> subst he <;> simp at h

theorem takeWhile_append_sat {p : Char → Bool} {l : List Char} (l' : List Char)
    (h : ∀ c ∈ l, p c = true) :
    (l ++ l').takeWhile p = l ++ l'.takeWhile p := by
  induction l with
  | nil => simp
  | cons c cs ih => simp_all [List.takeWhile]

theorem takeWhile_cons_neg {p : Char → Bool} {b : Char} (t : List Char)
    (h : p b = false) : (b :: t).takeWhile p = [] := by
  simp [List.takeWhile, h]

/-- If `M ++ t = x ++ m :: u` and the marker `m` does not occur in `M`,
then `M` is a prefix of `x`. -/
theorem marker_bound {M t x u : List Char} {m : Char}
    (h : M ++ t = x ++ m :: u) (hm : m ∉ M) : M.length ≤ x.length := by
  by_contra hlt
  push_neg at hlt
  have htake : M.take x.length ++ M.drop x.length = M := List.take_append_drop ..
  have hM : M = (x ++ m :: u).take M.length := by
    rw [← h, List.take_append_of_le_length (by simp)]
    simp
  have hx : (x ++ m :: u).take M.length = x ++ (m :: u).take (M.length - x.length) := by
    rw [List.take_append_eq_append_take, List.take_of_length_le (le_of_lt hlt)]
  have hpos : 1 ≤ M.length - x.length := by omega
  have : m ∈ M := by
    rw [hM, hx]
    refine List.mem_append.mpr (Or.inr ?_)
    rcases Nat.exists_eq_add_of_le hpos with ⟨j, hj⟩
    rw [hj]
    simp [List.take_cons]
  exact hm this

/-- Splitting an append equation when the left part is no longer than the
split point. -/
theorem append_eq_of_le {M t x y : List Char} (h : M ++ t = x ++ y)
    (hle : M.length ≤ x.length) : ∃ x₂, x = M ++ x₂ := by
  have hM : M = x.take M.length := by
    have h1 : (M ++ t).take M.length = M := by simp
    rw [h, List.take_append_of_le_length hle] at h1
    exact h1.symm
  refine ⟨x.drop M.length, ?_⟩
  conv_lhs => rw [← List.take_append_drop M.length x]
  rw [← hM]

/-- The marker consequence used throughout: a marker-free region of a
decomposition is a prefix of the text before a `[`. -/
theorem marker_split {M t x u : List Char}
    (h : M ++ t = x ++ '[' :: u) (hm : '[' ∉ M) : ∃ x₂, x = M ++ x₂ :=
  append_eq_of_le h (marker_bound h hm)

theorem eq_append_marker {m : Char} :
    ∀ (a : List Char) (b x y : List Char), a ++ m :: x = b ++ m :: y →
      m ∉ a → m ∉ b → a = b ∧ x = y := by
  intro a
  induction a with
  | nil =>
    intro b x y h ha hb
    cases b with
    | nil => simpa using h
    | cons c bs =>
      simp only [List.nil_append, List.cons_append, List.cons.injEq] at h
      exact absurd (h.1 ▸ List.mem_cons_self ..) hb
  | cons c as ih =>
    intro b x y h ha hb
    cases b with
    | nil =>
      simp only [List.cons_append, List.nil_append, List.cons.injEq] at h
      exact absurd (h.1.symm ▸ List.mem_cons_self ..) ha
    | cons c' bs =>
      simp only [List.cons_append, List.cons.injEq] at h
      have := ih bs x y h.2 (fun hm => ha (List.mem_cons_of_mem _ hm))
        (fun hm => hb (List.mem_cons_of_mem _ hm))
      exact ⟨by rw [h.1, this.1], this.2⟩

/-- A match of `EMAIL_RE` exists at the head of `s` iff `s` splits into a
non-empty local part, `@`, a non-empty domain part, a dot and at least two
letters (and an arbitrary tail). -/
def EmailDecomp (s : List Char) : Prop :=
  ∃ l a r t, s = l ++ '@' :: (a ++ '.' :: (r ++ t)) ∧
    l ≠ [] ∧ (∀ c ∈ l, isLocalChar c = true) ∧
    a ≠ [] ∧ (∀ c ∈ a, isDomainChar c = true) ∧
    2 ≤ r.length ∧ (∀ c ∈ r, isAsciiAlpha c = true)

theorem emailDomainSplit_some {aft : List Char} :
    ∀ {k d rr}, emailDomainSplit aft k = some (d, rr) →
      1 ≤ d ∧ d ≤ k ∧ aft.get? d = some '.' ∧
      rr = ((aft.drop (d + 1)).takeWhile isAsciiAlpha).length ∧ 2 ≤ rr := by
  intro k
  induction k with
  | zero => intro d rr h; simp [emailDomainSplit] at h
  | succ k ih =>
    intro d rr h
    simp only [emailDomainSplit] at h
    split_ifs at h with hc
    · have h2 := Option.some.inj h
      rw [Prod.ext_iff] at h2
      obtain ⟨hd, hr⟩ := h2
      simp only at hd hr
      subst hd
      subst hr
      exact ⟨by omega, le_refl _, hc.1, rfl, hc.2⟩
    · obtain ⟨h1, h2, h3, h4, h5⟩ := ih h
      exact ⟨h1, by omega, h3, h4, h5⟩

theorem emailDomainSplit_exists {aft : List Char} :
    ∀ {k}, (∃ d, 1 ≤ d ∧ d ≤ k ∧ aft.get? d = some '.' ∧
      2 ≤ ((aft.drop (d + 1)).takeWhile isAsciiAlpha).length) →
      emailDomainSplit aft k ≠ none := by
  intro k
  induction k with
  | zero => rintro ⟨d, h1, h2, _⟩; omega
  | succ k ih =>
    rintro ⟨d, h1, h2, h3, h4⟩
    simp only [emailDomainSplit]
    split_ifs with hc
    · simp
    · apply ih
      refine ⟨d, h1, ?_, h3, h4⟩
      by_cases hd : d = k + 1
      · subst hd
        exact absurd ⟨h3, h4⟩ hc
      · omega

theorem emailMatchAt_some_decomp {s : List Char} {n : Nat}
    (h : emailMatchAt s = some n) : EmailDecomp s := by
  simp only [emailMatchAt] at h
  split_ifs at h with hz
  have hsplit : s = s.takeWhile isLocalChar ++ s.dropWhile isLocalChar :=
    (List.takeWhile_append_dropWhile ..).symm
  have hdrop : s.drop (s.takeWhile isLocalChar).length = s.dropWhile isLocalChar := by
    have h2 := List.drop_left (s.takeWhile isLocalChar) (s.dropWhile isLocalChar)
    rw [List.takeWhile_append_dropWhile] at h2
    exact h2
  rw [hdrop] at h
  rcases hdw : s.dropWhile isLocalChar with _ | ⟨b, aft⟩
  · rw [hdw] at h
    simp at h
  · rw [hdw] at h
    simp only at h
    split_ifs at h with hb
    subst hb
    rcases hsp : emailDomainSplit aft ((aft.takeWhile isDomainChar).length - 1)
        with _ | ⟨d, rr⟩
    · rw [hsp] at h
      simp at h
    · obtain ⟨hd1, hdk, hdot, _hrr, hrr2⟩ := emailDomainSplit_some hsp
      obtain ⟨hdd, hget⟩ := List.get?_eq_some.mp hdot
      have hdomlen : d < (aft.takeWhile isDomainChar).length := by omega
      have haft : aft = aft.take d ++ '.' :: aft.drop (d + 1) := by
        conv_lhs => rw [← List.take_append_drop d aft]
        rw [List.drop_eq_get_cons hdd, hget]
      refine ⟨s.takeWhile isLocalChar, aft.take d,
        (aft.drop (d + 1)).takeWhile isAsciiAlpha,
        (aft.drop (d + 1)).dropWhile isAsciiAlpha, ?_, ?_, ?_, ?_, ?_, ?_, ?_⟩
      · rw [List.takeWhile_append_dropWhile]
        conv_lhs => rw [hsplit, hdw]
        rw [← haft]
      · intro hnil
        rw [hnil] at hz
        simp at hz
      · intro c hc
        exact List.mem_takeWhile_imp hc
      · intro hnil
        have : (aft.take d).length = 0 := by rw [hnil]; rfl
        rw [List.length_take] at this
        omega
      · intro c hc
        have hpre : aft.take d = (aft.takeWhile isDomainChar).take d := by
          conv_lhs =>
            rw [← List.takeWhile_append_dropWhile (p := isDomainChar) (l := aft)]
          rw [List.take_append_of_le_length (le_of_lt hdomlen)]
        rw [hpre] at hc
        exact List.mem_takeWhile_imp (List.take_subset _ _ hc)
      · omega
      · intro c hc
        exact List.mem_takeWhile_imp hc

theorem emailMatchAt_ne_none_of_decomp {s : List Char} (h : EmailDecomp s) :
    emailMatchAt s ≠ none := by
  obtain ⟨l, a, r, t, hs, hl, hlloc, ha, hadom, hr2, hralpha⟩ := h
  have htw : s.takeWhile isLocalChar = l := by
    rw [hs, takeWhile_append_sat _ hlloc, takeWhile_cons_neg _ (by decide)]
    simp
  have hdropl : s.drop l.length = '@' :: (a ++ '.' :: (r ++ t)) := by
    rw [hs, List.drop_left]
  simp only [emailMatchAt, htw, hdropl]
  rw [if_neg (by simp [hl])]
  rw [if_pos trivial]
  have hdom : (a ++ '.' :: (r ++ t)).takeWhile isDomainChar =
      a ++ '.' :: (r ++ t).takeWhile isDomainChar := by
    rw [takeWhile_append_sat _ hadom]
    have h1 : isDomainChar '.' = true := by decide
    simp [List.takeWhile, h1]
  have hexists : emailDomainSplit (a ++ '.' :: (r ++ t))
      (((a ++ '.' :: (r ++ t)).takeWhile isDomainChar).length - 1) ≠ none := by
    apply emailDomainSplit_exists
    refine ⟨a.length, ?_, ?_, ?_, ?_⟩
    · have := List.length_pos.mpr ha
      omega
    · rw [hdom]
      simp only [List.length_append, List.length_cons]
      omega
    · rw [List.get?_append_right (le_refl a.length)]
      simp
    · have hdrop2 : (a ++ '.' :: (r ++ t)).drop (a.length + 1) = r ++ t := by
        have : a ++ '.' :: (r ++ t) = (a ++ ['.']) ++ (r ++ t) := by simp
        rw [this]
        have hlen : (a ++ ['.']).length = a.length + 1 := by simp
        rw [← hlen, List.drop_left]
      rw [hdrop2, takeWhile_append_sat _ hralpha]
      simp only [List.length_append]
      omega
  rcases hsp : emailDomainSplit (a ++ '.' :: (r ++ t))
      (((a ++ '.' :: (r ++ t)).takeWhile isDomainChar).length - 1) with _ | ⟨d, rr⟩
  · exact absurd hsp hexists
  · simp

/-- No match of `EMAIL_RE` can start on a run of local characters that is
terminated by a non-local character other than `@`. -/
theorem emailMatchAt_blocked {p : List Char} {b : Char} (u : List Char)
    (hp : ∀ c ∈ p, isLocalChar c = true) (hb : isLocalChar b = false) (hb2 : b ≠ '@') :
    emailMatchAt (p ++ b :: u) = none := by
  have htw : (p ++ b :: u).takeWhile isLocalChar = p := by
    rw [takeWhile_append_sat _ hp, takeWhile_cons_neg _ hb]
    simp
  simp only [emailMatchAt, htw]
  by_cases hz : p.length = 0
  · rw [if_pos hz]
  · rw [if_neg hz]
    have hdrop : (p ++ b :: u).drop p.length = b :: u := List.drop_left ..
    rw [hdrop]
    simp [hb2]

/-- Positions strictly inside `p` can never start an email match, whatever
follows `p`. -/
def SegBlockedE (p : List Char) : Prop :=
  ∀ i, i < p.length → ∀ u, emailMatchAt (p.drop i ++ u) = none

theorem SegBlockedE.appendE {p q : List Char} (hp : SegBlockedE p) (hq : SegBlockedE q) :
    SegBlockedE (p ++ q) := by
  intro i hi u
  rcases Nat.lt_or_ge i p.length with hlt | hge
  · rw [List.drop_append_of_le_length (le_of_lt hlt), List.append_assoc]
    exact hp i hlt (q ++ u)
  · rw [List.drop_append_eq_append_drop, List.drop_eq_nil_of_le hge, List.nil_append]
    apply hq
    rw [List.length_append] at hi
    omega

theorem SegBlockedE.atom {p : List Char} {b : Char}
    (hp : ∀ c ∈ p, isLocalChar c = true) (hb : isLocalChar b = false) (hb2 : b ≠ '@') :
    SegBlockedE (p ++ [b]) := by
  intro i hi u
  have hi' : i ≤ p.length := by
    rw [List.length_append, List.length_cons, List.length_nil] at hi
    omega
  rw [List.drop_append_of_le_length hi', List.append_assoc, List.singleton_append]
  exact emailMatchAt_blocked u (fun c hc => hp c (List.drop_subset _ _ hc)) hb hb2

/-- No match of `EMAIL_RE` starts anywhere in `s`. -/
def emailFree (s : List Char) : Prop :=
  ∀ i, emailMatchAt (s.drop i) = none

theorem emailFree_nil : emailFree [] := by
  intro i
  rw [List.drop_nil]
  rfl

theorem emailFree_cons_of {c : Char} {t : List Char}
    (h1 : emailMatchAt (c :: t) = none) (h2 : emailFree t) : emailFree (c :: t) := by
  intro i
  cases i with
  | zero => exact h1
  | succ j => exact h2 j

theorem emailFree_of_cons {c : Char} {t : List Char} (h : emailFree (c :: t)) :
    emailFree t :=
  fun i => h (i + 1)

theorem emailFree_drop {s : List Char} (h : emailFree s) (j : Nat) :
    emailFree (s.drop j) := by
  intro i
  rw [List.drop_drop]
  exact h (j + i)

theorem emailFree_append {p u : List Char} (hp : SegBlockedE p) (hu : emailFree u) :
    emailFree (p ++ u) := by
  intro i
  rcases Nat.lt_or_ge i p.length with hlt | hge
  · rw [List.drop_append_of_le_length (le_of_lt hlt)]
    exact hp i hlt u
  · rw [List.drop_append_eq_append_drop, List.drop_eq_nil_of_le hge, List.nil_append]
    exact hu (i - p.length)

theorem segBlockedE_emailPlaceholder : SegBlockedE emailPlaceholder := by
  have h1 : emailPlaceholder = ([] ++ ['[']) ++ ("redacted-email".toList ++ [']']) := by
    decide
  rw [h1]
  exact (SegBlockedE.atom (by simp) (by decide) (by decide)).appendE
    (SegBlockedE.atom (by decide) (by decide) (by decide))

theorem emailSub_shape : ∀ s : List Char,
    emailSub s = s ∨ ∃ k u, emailSub s = s.take k ++ '[' :: u := by
  have main : ∀ (n : Nat) (s : List Char), s.length ≤ n →
      emailSub s = s ∨ ∃ k u, emailSub s = s.take k ++ '[' :: u := by
    intro n
    induction n with
    | zero =>
      intro s hs
      rw [List.length_eq_zero.mp (Nat.le_zero.mp hs)]
      left
      simp [emailSub]
    | succ n ih =>
      intro s hs
      rcases s with _ | ⟨c, rest⟩
      · left; simp [emailSub]
      · rcases hm : emailMatchAt (c :: rest) with _ | m
        · rcases ih rest (by rw [List.length_cons] at hs; omega) with h | ⟨k, u, h⟩
          · left
            simp only [emailSub, hm]
            rw [h]
          · right
            refine ⟨k + 1, u, ?_⟩
            simp only [emailSub, hm]
            rw [h, List.take_succ_cons, List.cons_append]
        · right
          refine ⟨0, "redacted-email]".toList ++ emailSub (rest.drop (m - 1)), ?_⟩
          simp only [emailSub, hm]
          rfl
  exact fun s => main s.length s (le_refl _)

theorem bracket_not_mem_region {l a r : List Char}
    (hl : ∀ c ∈ l, isLocalChar c = true) (ha : ∀ c ∈ a, isDomainChar c = true)
    (hr : ∀ c ∈ r, isAsciiAlpha c = true) :
    '[' ∉ l ++ '@' :: (a ++ '.' :: r) := by
  intro hmem
  rcases List.mem_append.mp hmem with hmem | hmem
  · exact (isLocalChar_props (hl _ hmem)).1 rfl
  · rcases List.mem_cons.mp hmem with hmem | hmem
    · exact absurd hmem.symm (by decide)
    · rcases List.mem_append.mp hmem with hmem | hmem
      · exact (isLocalChar_props (isDomainChar_local (ha _ hmem))).1 rfl
      · rcases List.mem_cons.mp hmem with hmem | hmem
        · exact absurd hmem.symm (by decide)
        · exact (isLocalChar_props (isDomainChar_local (isAsciiAlpha_domain (hr _ hmem)))).1 rfl

theorem decomp_region_assoc (l a r t : List Char) :
    l ++ '@' :: (a ++ '.' :: (r ++ t)) = (l ++ '@' :: (a ++ '.' :: r)) ++ t := by
  simp

/-- Core cancellation step: if the text before the first `[` of `x` cannot
be extended to a match in the original string, prepending it to anything
bracket-guarded cannot create one. -/
theorem emailMatchAt_congr_bracket {x u w : List Char}
    (h : EmailDecomp (x ++ '[' :: u)) : EmailDecomp (x ++ w) := by
  obtain ⟨l, a, r, t, heq, hl, hlloc, ha, hadom, hr2, hralpha⟩ := h
  rw [decomp_region_assoc] at heq
  obtain ⟨x₂, hx⟩ := marker_split heq.symm (bracket_not_mem_region hlloc hadom hralpha)
  refine ⟨l, a, r, x₂ ++ w, ?_, hl, hlloc, ha, hadom, hr2, hralpha⟩
  rw [decomp_region_assoc, ← List.append_assoc, ← hx]

theorem emailFree_emailSub : ∀ s : List Char, emailFree (emailSub s) := by
  have main : ∀ (n : Nat) (s : List Char), s.length ≤ n → emailFree (emailSub s) := by
    intro n
    induction n with
    | zero =>
      intro s hs
      rw [List.length_eq_zero.mp (Nat.le_zero.mp hs),
        show emailSub [] = [] from by simp [emailSub]]
      exact emailFree_nil
    | succ n ih =>
      intro s hs
      rcases s with _ | ⟨c, rest⟩
      · rw [show emailSub [] = [] from by simp [emailSub]]
        exact emailFree_nil
      · rcases hm : emailMatchAt (c :: rest) with _ | m
        · simp only [emailSub, hm]
          refine emailFree_cons_of ?_ (ih rest (by rw [List.length_cons] at hs; omega))
          rcases hne : emailMatchAt (c :: emailSub rest) with _ | m2
          · rfl
          · exfalso
            have hdec := emailMatchAt_some_decomp hne
            rcases emailSub_shape rest with h | ⟨k, u, h⟩
            · rw [h] at hdec
              exact absurd hm (emailMatchAt_ne_none_of_decomp hdec)
            · rw [h] at hdec
              have hdec2 : EmailDecomp ((c :: rest.take k) ++ '[' :: u) := by
                rw [List.cons_append]
                exact hdec
              have hdec3 := emailMatchAt_congr_bracket
                (w := rest.drop k) hdec2
              have hdec4 : EmailDecomp (c :: rest) := by
                rw [List.cons_append, List.take_append_drop] at hdec3
                exact hdec3
              exact absurd hm (emailMatchAt_ne_none_of_decomp hdec4)
        · simp only [emailSub, hm]
          exact emailFree_append segBlockedE_emailPlaceholder
            (ih (rest.drop (m - 1))
              (by rw [List.length_cons] at hs; simp [List.length_drop]; omega))
  exact fun s => main s.length s (le_refl _)

theorem emailSub_of_emailFree : ∀ s : List Char, emailFree s → emailSub s = s := by
  intro s
  induction s with
  | nil => intro _; simp [emailSub]
  | cons c rest ih =>
    intro hf
    have h0 : emailMatchAt (c :: rest) = none := hf 0
    simp only [emailSub, h0]
    rw [ih (emailFree_of_cons hf)]

/-- Case-insensitive equality of a keyword with a matched text, character
by character. -/
def ciList : List Char → List Char → Bool
  | [], [] => true
  | p :: ps, c :: cs => ciChar p c && ciList ps cs
  | _, _ => false

/-- The matched group 1 of `TOKEN_RE` is one of the three keywords up to
ASCII case. -/
def isKeyCIList (k : List Char) : Prop :=
  ciList "api_key".toList k = true ∨ ciList "token".toList k = true ∨
    ciList "secret".toList k = true

/-- A match of `TOKEN_RE` exists at the head of `s` iff `s` starts with a
keyword (case-insensitively), `=`, and at least one value character. -/
def TokenDecomp (s : List Char) : Prop :=
  ∃ k c t, isKeyCIList k ∧ s = k ++ '=' :: c :: t ∧ isValueChar c = true

theorem stripCI_some : ∀ {kw s k r : List Char}, stripCI kw s = some (k, r) →
    ciList kw k = true ∧ s = k ++ r := by
  intro kw
  induction kw with
  | nil =>
    intro s k r h
    simp only [stripCI, Option.some.injEq, Prod.mk.injEq] at h
    obtain ⟨hk, hr⟩ := h
    subst hk
    subst hr
    exact ⟨rfl, rfl⟩
  | cons p ps ih =>
    intro s k r h
    rcases s with _ | ⟨c, cs⟩
    · simp [stripCI] at h
    · simp only [stripCI] at h
      split_ifs at h with hc
      · rcases hs : stripCI ps cs with _ | ⟨k', r'⟩
        · rw [hs] at h
          simp at h
        · rw [hs] at h
          simp only [Option.some.injEq, Prod.mk.injEq] at h
          obtain ⟨hk, hr⟩ := h
          subst hk
          subst hr
          obtain ⟨h1, h2⟩ := ih hs
          refine ⟨?_, by rw [h2]; rfl⟩
          simp [ciList, hc, h1]

theorem stripCI_complete : ∀ {kw k : List Char} (r : List Char),
    ciList kw k = true → stripCI kw (k ++ r) = some (k, r) := by
  intro kw
  induction kw with
  | nil =>
    intro k r h
    rcases k with _ | ⟨c, cs⟩
    · rfl
    · simp [ciList] at h
  | cons p ps ih =>
    intro k r h
    rcases k with _ | ⟨c, cs⟩
    · simp [ciList] at h
    · simp only [ciList, Bool.and_eq_true] at h
      simp only [List.cons_append, stripCI, h.1, if_true, List.append_eq]
      rw [ih r h.2]

theorem tokenTryKey_some {kw s k : List Char} {n : Nat}
    (h : tokenTryKey kw s = some (k, n)) :
    ciList kw k = true ∧ ∃ rest2, s = k ++ '=' :: rest2 ∧
      1 ≤ (rest2.takeWhile isValueChar).length ∧
      n = k.length + 1 + (rest2.takeWhile isValueChar).length := by
  simp only [tokenTryKey] at h
  rcases hs : stripCI kw s with _ | ⟨k', rest1⟩
  · rw [hs] at h
    simp at h
  · rw [hs] at h
    rcases rest1 with _ | ⟨b, rest2⟩
    · simp at h
    · simp only at h
      split_ifs at h with hb hv
      · subst hb
        simp only [Option.some.injEq, Prod.mk.injEq] at h
        obtain ⟨hk, hn⟩ := h
        subst hk
        obtain ⟨h1, h2⟩ := stripCI_some hs
        exact ⟨h1, rest2, h2, hv, hn.symm⟩

theorem tokenTryKey_complete {kw k t : List Char} {c : Char}
    (hk : ciList kw k = true) (hc : isValueChar c = true) :
    tokenTryKey kw (k ++ '=' :: c :: t) ≠ none := by
  simp only [tokenTryKey, stripCI_complete ('=' :: c :: t) hk]
  have hval : ((c :: t).takeWhile isValueChar).length = 1 + (t.takeWhile isValueChar).length := by
    simp [List.takeWhile, hc, Nat.add_comm]
  rw [if_pos trivial, if_pos (by omega)]
  simp

theorem tokenMatchAt_eq_none_iff {s : List Char} : tokenMatchAt s = none ↔
    tokenTryKey "api_key".toList s = none ∧ tokenTryKey "token".toList s = none ∧
    tokenTryKey "secret".toList s = none := by
  simp only [tokenMatchAt]
  rcases h1 : tokenTryKey "api_key".toList s with _ | v1 <;>
    rcases h2 : tokenTryKey "token".toList s with _ | v2 <;>
      rcases h3 : tokenTryKey "secret".toList s with _ | v3 <;>
        simp [Option.orElse]

theorem tokenMatchAt_some_cases {s k : List Char} {n : Nat}
    (h : tokenMatchAt s = some (k, n)) :
    tokenTryKey "api_key".toList s = some (k, n) ∨
    tokenTryKey "token".toList s = some (k, n) ∨
    tokenTryKey "secret".toList s = some (k, n) := by
  simp only [tokenMatchAt] at h
  rcases h1 : tokenTryKey "api_key".toList s with _ | v1 <;> rw [h1] at h
  · rcases h2 : tokenTryKey "token".toList s with _ | v2 <;> rw [h2] at h
    · rcases h3 : tokenTryKey "secret".toList s with _ | v3 <;> rw [h3] at h
      · simp [Option.orElse] at h
      · simp only [Option.orElse] at h
        right; right
        exact h
    · simp only [Option.orElse] at h
      right; left
      exact h
  · simp only [Option.orElse] at h
    left
    exact h

theorem tokenMatchAt_some_split {s k : List Char} {n : Nat}
    (h : tokenMatchAt s = some (k, n)) :
    isKeyCIList k ∧ ∃ rest2, s = k ++ '=' :: rest2 ∧
      1 ≤ (rest2.takeWhile isValueChar).length := by
  rcases tokenMatchAt_some_cases h with h1 | h1 | h1 <;>
    obtain ⟨hk, rest2, hs, hv, _⟩ := tokenTryKey_some h1
  · exact ⟨Or.inl hk, rest2, hs, hv⟩
  · exact ⟨Or.inr (Or.inl hk), rest2, hs, hv⟩
  · exact ⟨Or.inr (Or.inr hk), rest2, hs, hv⟩

theorem tokenMatchAt_some_decomp {s k : List Char} {n : Nat}
    (h : tokenMatchAt s = some (k, n)) : TokenDecomp s := by
  obtain ⟨hk, rest2, hs, hv⟩ := tokenMatchAt_some_split h
  rcases rest2 with _ | ⟨c, t⟩
  · simp [List.takeWhile] at hv
  · by_cases hc : isValueChar c = true
    · exact ⟨k, c, t, hk, hs, hc⟩
    · rw [takeWhile_cons_neg _ (by simpa using hc)] at hv
      simp at hv

theorem tokenMatchAt_ne_none_of_decomp {s : List Char} (h : TokenDecomp s) :
    tokenMatchAt s ≠ none := by
  obtain ⟨k, c, t, hk, hs, hc⟩ := h
  intro hnone
  rw [tokenMatchAt_eq_none_iff] at hnone
  rcases hk with hk | hk | hk
  · exact tokenTryKey_complete hk hc (hs ▸ hnone.1)
  · exact tokenTryKey_complete hk hc (hs ▸ hnone.2.1)
  · exact tokenTryKey_complete hk hc (hs ▸ hnone.2.2)

theorem ciChar_true_iff {p c : Char} : ciChar p c = true ↔
    (c = p ∨ (97 ≤ p.toNat ∧ p.toNat ≤ 122 ∧ c.toNat + 32 = p.toNat)) := by
  simp [ciChar]

theorem ciList_forall : ∀ {kw k : List Char}, ciList kw k = true →
    ∀ c ∈ k, ∃ p ∈ kw, ciChar p c = true := by
  intro kw
  induction kw with
  | nil =>
    intro k h c hc
    rcases k with _ | _
    · simp at hc
    · simp [ciList] at h
  | cons p ps ih =>
    intro k h c hc
    rcases k with _ | ⟨c', cs⟩
    · simp [ciList] at h
    · simp only [ciList, Bool.and_eq_true] at h
      rcases List.mem_cons.mp hc with hc | hc
      · subst hc
        exact ⟨p, List.mem_cons_self .., h.1⟩
      · obtain ⟨q, hq, hq2⟩ := ih h.2 c hc
        exact ⟨q, List.mem_cons_of_mem _ hq, hq2⟩

/-- Every character of every keyword is a lowercase letter or `_`. -/
theorem kw_char_range : ∀ p ∈ "api_key".toList ++ "token".toList ++ "secret".toList,
    (97 ≤ p.toNat ∧ p.toNat ≤ 122) ∨ p.toNat = 95 := by
  decide

/-- Characters matched case-insensitively against a keyword character are
local characters and none of the sentinel characters. -/
theorem key_char_props {p c : Char}
    (hp : (97 ≤ p.toNat ∧ p.toNat ≤ 122) ∨ p.toNat = 95)
    (h : ciChar p c = true) :
    isLocalChar c = true ∧ c ≠ '=' ∧ c ≠ '[' ∧ c ≠ ']' ∧ c ≠ '@' := by
  have hrange : (97 ≤ c.toNat ∧ c.toNat ≤ 122) ∨ c.toNat = 95 ∨
      (65 ≤ c.toNat ∧ c.toNat ≤ 90) := by
    rcases ciChar_true_iff.mp h with hc | ⟨h1, h2, h3⟩
    · subst hc
      tauto
    · omega
  refine ⟨?_, ?_, ?_, ?_, ?_⟩
  · simp only [isLocalChar, decide_eq_true_eq]
    omega
  all_goals intro he
  all_goals subst he
  all_goals revert hrange
  all_goals decide

theorem keyCI_char_props {k : List Char} (hk : isKeyCIList k) :
    ∀ c ∈ k, isLocalChar c = true ∧ c ≠ '=' ∧ c ≠ '[' ∧ c ≠ ']' ∧ c ≠ '@' := by
  intro c hc
  have hget : ∃ p ∈ "api_key".toList ++ "token".toList ++ "secret".toList,
      ciChar p c = true := by
    rcases hk with hk | hk | hk <;> obtain ⟨p, hp, hp2⟩ := ciList_forall hk c hc
    · exact ⟨p, List.mem_append.mpr (Or.inl (List.mem_append.mpr (Or.inl hp))), hp2⟩
    · exact ⟨p, List.mem_append.mpr (Or.inl (List.mem_append.mpr (Or.inr hp))), hp2⟩
    · exact ⟨p, List.mem_append.mpr (Or.inr hp), hp2⟩
  obtain ⟨p, hp, hp2⟩ := hget
  exact key_char_props (kw_char_range p hp) hp2

theorem keyCI_no_marker {k : List Char} (hk : isKeyCIList k) :
    '=' ∉ k ∧ '[' ∉ k ∧ ']' ∉ k := by
  refine ⟨?_, ?_, ?_⟩ <;> intro hmem
  · exact (keyCI_char_props hk _ hmem).2.1 rfl
  · exact (keyCI_char_props hk _ hmem).2.2.1 rfl
  · exact (keyCI_char_props hk _ hmem).2.2.2.1 rfl

/-- Positions strictly inside `p` can never start a token match, whatever
follows `p`. -/
def SegBlockedT (p : List Char) : Prop :=
  ∀ i, i < p.length → ∀ u, tokenMatchAt (p.drop i ++ u) = none

theorem SegBlockedT.appendT {p q : List Char} (hp : SegBlockedT p) (hq : SegBlockedT q) :
    SegBlockedT (p ++ q) := by
  intro i hi u
  rcases Nat.lt_or_ge i p.length with hlt | hge
  · rw [List.drop_append_of_le_length (le_of_lt hlt), List.append_assoc]
    exact hp i hlt (q ++ u)
  · rw [List.drop_append_eq_append_drop, List.drop_eq_nil_of_le hge, List.nil_append]
    apply hq
    rw [List.length_append] at hi
    omega

theorem tokenMatchAt_none_of_no_decomp {s : List Char} (h : ¬TokenDecomp s) :
    tokenMatchAt s = none := by
  rcases hm : tokenMatchAt s with _ | ⟨k, n⟩
  · rfl
  · exact absurd (tokenMatchAt_some_decomp hm) h

/-- Atom A for the token replacement: inside the kept keyword, the `=` and
the opening bracket of `[redacted]`, no token match can start. -/
theorem segBlockedT_key_part {k : List Char} (hk : isKeyCIList k) :
    SegBlockedT (k ++ ['=', '[']) := by
  intro i hi u
  apply tokenMatchAt_none_of_no_decomp
  rintro ⟨k₁, c₁, t₁, hkey, heq, hval⟩
  rcases Nat.lt_or_ge i k.length with hlt | hge
  · rw [List.drop_append_of_le_length (le_of_lt hlt)] at heq
    have heq2 : k.drop i ++ '=' :: '[' :: u = k₁ ++ '=' :: c₁ :: t₁ := by
      rw [← heq]
      simp
    obtain ⟨hkk, htail⟩ := eq_append_marker _ _ _ _ heq2
      (fun hm => (keyCI_no_marker hk).1 (List.drop_subset _ _ hm))
      (fun hm => (keyCI_no_marker hkey).1 hm)
    have hc1 : c₁ = '[' := (List.cons.injEq .. ▸ htail).1.symm
    subst hc1
    exact absurd hval (by decide)
  · have hik : i - k.length < 2 := by
      rw [List.length_append] at hi
      simp at hi
      omega
    rw [List.drop_append_eq_append_drop, List.drop_eq_nil_of_le hge,
      List.nil_append] at heq
    rcases Nat.lt_or_ge (i - k.length) 1 with h0 | h1
    · have h00 : i - k.length = 0 := by omega
      rw [h00] at heq
      -- heq : '=' :: '[' :: u = k₁ ++ '=' :: c₁ :: t₁ with '=' ∉ k₁
      obtain ⟨hkk, htail⟩ := eq_append_marker _ [] _ _
        (by rw [← heq]; rfl)
        (fun hm => (keyCI_no_marker hkey).1 hm)
        (by simp)
      rw [hkk] at hkey
      rcases hkey with hkey | hkey | hkey <;> simp [ciList] at hkey
    · have h11 : i - k.length = 1 := by omega
      rw [h11] at heq
      -- heq : '[' :: u = k₁ ++ '=' :: c₁ :: t₁
      rcases k₁ with _ | ⟨c₀, k₁'⟩
      · simp at heq
      · have hc0 : c₀ = '[' := by
          have := congrArg (fun l => l.head?) heq
          simpa using this.symm
        subst hc0
        exact (keyCI_no_marker hkey).2.1 (List.mem_cons_self ..)

/-- Atom B: inside `redacted]` no token match can start, because any
candidate keyword would have to contain the `]` or stop at a `=` that is
not there. -/
theorem segBlockedT_stopper {p : List Char} (hne : '=' ∉ p)
    (hcl : ']' ∈ p) : ∀ u, tokenMatchAt (p ++ u) = none := by
  intro u
  apply tokenMatchAt_none_of_no_decomp
  rintro ⟨k₁, c₁, t₁, hkey, heq, hval⟩
  rcases Nat.lt_or_ge k₁.length p.length with hlt | hge
  · have hget : (k₁ ++ '=' :: c₁ :: t₁).get? k₁.length = some '=' := by
      rw [List.get?_append_right (le_refl _)]
      simp
    rw [← heq] at hget
    rw [List.get?_append hlt] at hget
    exact hne (List.get?_mem hget)
  · have htake : p = k₁.take p.length := by
      have h1 : (p ++ u).take p.length = p := by simp
      rw [heq, List.take_append_of_le_length hge] at h1
      exact h1.symm
    have : ']' ∈ k₁ := by
      rw [htake] at hcl
      exact List.take_subset _ _ hcl
    exact (keyCI_no_marker hkey).2.2 this

theorem segBlockedT_redactedBracket : SegBlockedT "redacted]".toList := by
  intro i hi u
  have hne : '=' ∉ ("redacted]".toList.drop i) :=
    fun hm => (by decide : '=' ∉ "redacted]".toList) (List.drop_subset _ _ hm)
  have hcl : ']' ∈ ("redacted]".toList.drop i) := by
    have hb : ∀ j, j < 9 → ']' ∈ ("redacted]".toList.drop j) := by decide
    have hlen : ("redacted]".toList).length = 9 := by decide
    exact hb i (by rw [hlen] at hi; exact hi)
  exact segBlockedT_stopper hne hcl u

def tokenFree (s : List Char) : Prop :=
  ∀ i, tokenMatchAt (s.drop i) = none

theorem tokenFree_nil : tokenFree [] := by
  intro i
  rw [List.drop_nil]
  rfl

theorem tokenFree_cons_of {c : Char} {t : List Char}
    (h1 : tokenMatchAt (c :: t) = none) (h2 : tokenFree t) : tokenFree (c :: t) := by
  intro i
  cases i with
  | zero => exact h1
  | succ j => exact h2 j

theorem tokenFree_of_cons {c : Char} {t : List Char} (h : tokenFree (c :: t)) :
    tokenFree t :=
  fun i => h (i + 1)

theorem tokenFree_append {p u : List Char} (hp : SegBlockedT p) (hu : tokenFree u) :
    tokenFree (p ++ u) := by
  intro i
  rcases Nat.lt_or_ge i p.length with hlt | hge
  · rw [List.drop_append_of_le_length (le_of_lt hlt)]
    exact hp i hlt u
  · rw [List.drop_append_eq_append_drop, List.drop_eq_nil_of_le hge, List.nil_append]
    exact hu (i - p.length)

theorem tokenSub_shape : ∀ s : List Char,
    tokenSub s = s ∨ ∃ m u, tokenSub s = s.take m ++ '[' :: u := by
  have main : ∀ (n : Nat) (s : List Char), s.length ≤ n →
      tokenSub s = s ∨ ∃ m u, tokenSub s = s.take m ++ '[' :: u := by
    intro n
    induction n with
    | zero =>
      intro s hs
      rw [List.length_eq_zero.mp (Nat.le_zero.mp hs)]
      left
      simp [tokenSub]
    | succ n ih =>
      intro s hs
      rcases s with _ | ⟨c, rest⟩
      · left; simp [tokenSub]
      · rcases hm : tokenMatchAt (c :: rest) with _ | ⟨k, m⟩
        · rcases ih rest (by rw [List.length_cons] at hs; omega) with h | ⟨j, u, h⟩
          · left
            simp only [tokenSub, hm]
            rw [h]
          · right
            refine ⟨j + 1, u, ?_⟩
            simp only [tokenSub, hm]
            rw [h, List.take_succ_cons, List.cons_append]
        · right
          refine ⟨k.length + 1, "redacted]".toList ++ tokenSub (rest.drop (m - 1)), ?_⟩
          obtain ⟨_, rest2, hsplit, _⟩ := tokenMatchAt_some_split hm
          have hpl : tokenPlaceholder = '[' :: "redacted]".toList := by decide
          simp only [tokenSub, hm, hpl]
          rw [hsplit, List.take_append_eq_append_take,
            List.take_of_length_le (by omega), Nat.add_sub_cancel_left]
          simp
  exact fun s => main s.length s (le_refl _)

theorem bracket_not_mem_token_region {k : List Char} {c : Char}
    (hk : isKeyCIList k) (hc : isValueChar c = true) : '[' ∉ k ++ ['=', c] := by
  intro hm
  rcases List.mem_append.mp hm with hm | hm
  · exact (keyCI_no_marker hk).2.1 hm
  · rcases List.mem_cons.mp hm with hm | hm
    · exact absurd hm.symm (by decide)
    · rcases List.mem_cons.mp hm with hm | hm
      · exact (isValueChar_props hc).1 hm.symm
      · simp at hm

theorem tokenMatchAt_congr_bracket {x u w : List Char}
    (h : TokenDecomp (x ++ '[' :: u)) : TokenDecomp (x ++ w) := by
  obtain ⟨k₁, c₁, t₁, hkey, heq, hval⟩ := h
  have hassoc : (k₁ ++ ['=', c₁]) ++ t₁ = x ++ '[' :: u := by
    rw [heq]
    simp
  obtain ⟨x₂, hx⟩ := marker_split hassoc (bracket_not_mem_token_region hkey hval)
  refine ⟨k₁, c₁, x₂ ++ w, hkey, ?_, hval⟩
  rw [hx]
  simp

theorem tokenFree_tokenSub : ∀ s : List Char, tokenFree (tokenSub s) := by
  have main : ∀ (n : Nat) (s : List Char), s.length ≤ n → tokenFree (tokenSub s) := by
    intro n
    induction n with
    | zero =>
      intro s hs
      rw [List.length_eq_zero.mp (Nat.le_zero.mp hs),
        show tokenSub [] = [] from by simp [tokenSub]]
      exact tokenFree_nil
    | succ n ih =>
      intro s hs
      rcases s with _ | ⟨c, rest⟩
      · rw [show tokenSub [] = [] from by simp [tokenSub]]
        exact tokenFree_nil
      · rcases hm : tokenMatchAt (c :: rest) with _ | ⟨k, m⟩
        · simp only [tokenSub, hm]
          refine tokenFree_cons_of ?_ (ih rest (by rw [List.length_cons] at hs; omega))
          apply tokenMatchAt_none_of_no_decomp
          intro hdec
          rcases tokenSub_shape rest with h | ⟨j, u, h⟩
          · rw [h] at hdec
            exact absurd hm (tokenMatchAt_ne_none_of_decomp hdec)
          · rw [h] at hdec
            have hdec2 : TokenDecomp ((c :: rest.take j) ++ '[' :: u) := by
              rw [List.cons_append]
              exact hdec
            have hdec3 := tokenMatchAt_congr_bracket (w := rest.drop j) hdec2
            have hdec4 : TokenDecomp (c :: rest) := by
              rw [List.cons_append, List.take_append_drop] at hdec3
              exact hdec3
            exact absurd hm (tokenMatchAt_ne_none_of_decomp hdec4)
        · simp only [tokenSub, hm]
          obtain ⟨hkey, _, _, _⟩ := tokenMatchAt_some_split hm
          have hpl : tokenPlaceholder = '[' :: "redacted]".toList := by decide
          rw [hpl]
          have hreshape : k ++ '=' :: '[' :: "redacted]".toList ++
              tokenSub (rest.drop (m - 1)) =
              ((k ++ ['=', '[']) ++ "redacted]".toList) ++ tokenSub (rest.drop (m - 1)) := by
            simp
          rw [hreshape]
          exact tokenFree_append
            ((segBlockedT_key_part hkey).appendT segBlockedT_redactedBracket)
            (ih (rest.drop (m - 1))
              (by rw [List.length_cons] at hs; simp [List.length_drop]; omega))
  exact fun s => main s.length s (le_refl _)

theorem tokenSub_of_tokenFree : ∀ s : List Char, tokenFree s → tokenSub s = s := by
  intro s
  induction s with
  | nil => intro _; simp [tokenSub]
  | cons c rest ih =>
    intro hf
    have h0 : tokenMatchAt (c :: rest) = none := hf 0
    simp only [tokenSub, h0]
    rw [ih (tokenFree_of_cons hf)]

theorem segBlockedE_tokenPlaceholder : SegBlockedE tokenPlaceholder := by
  have h1 : tokenPlaceholder = ([] ++ ['[']) ++ ("redacted".toList ++ [']']) := by
    decide
  rw [h1]
  exact (SegBlockedE.atom (by simp) (by decide) (by decide)).appendE
    (SegBlockedE.atom (by decide) (by decide) (by decide))

theorem emailFree_tokenSub : ∀ s : List Char, emailFree s → emailFree (tokenSub s) := by
  have main : ∀ (n : Nat) (s : List Char), s.length ≤ n → emailFree s →
      emailFree (tokenSub s) := by
    intro n
    induction n with
    | zero =>
      intro s hs _
      rw [List.length_eq_zero.mp (Nat.le_zero.mp hs),
        show tokenSub [] = [] from by simp [tokenSub]]
      exact emailFree_nil
    | succ n ih =>
      intro s hs hf
      rcases s with _ | ⟨c, rest⟩
      · rw [show tokenSub [] = [] from by simp [tokenSub]]
        exact emailFree_nil
      · have hf0 : emailMatchAt (c :: rest) = none := by
          have h := hf 0
          rwa [List.drop_zero] at h
        rcases hm : tokenMatchAt (c :: rest) with _ | ⟨k, m⟩
        · simp only [tokenSub, hm]
          refine emailFree_cons_of ?_
            (ih rest (by rw [List.length_cons] at hs; omega) (emailFree_of_cons hf))
          rcases hm2 : emailMatchAt (c :: tokenSub rest) with _ | j
          · rfl
          · exfalso
            have hdec := emailMatchAt_some_decomp hm2
            rcases tokenSub_shape rest with h | ⟨jj, u, h⟩
            · rw [h] at hdec
              exact (emailMatchAt_ne_none_of_decomp hdec) hf0
            · rw [h] at hdec
              have hdec2 : EmailDecomp ((c :: rest.take jj) ++ '[' :: u) := by
                rw [List.cons_append]
                exact hdec
              have hdec3 := emailMatchAt_congr_bracket (w := rest.drop jj) hdec2
              have hdec4 : EmailDecomp (c :: rest) := by
                rw [List.cons_append, List.take_append_drop] at hdec3
                exact hdec3
              exact (emailMatchAt_ne_none_of_decomp hdec4) hf0
        · simp only [tokenSub, hm]
          obtain ⟨hkey, _, _, _⟩ := tokenMatchAt_some_split hm
          have hreshape : k ++ '=' :: tokenPlaceholder ++ tokenSub (rest.drop (m - 1)) =
              (k ++ ['=']) ++ (tokenPlaceholder ++ tokenSub (rest.drop (m - 1))) := by
            simp
          rw [hreshape]
          refine emailFree_append ?_ (emailFree_append segBlockedE_tokenPlaceholder ?_)
          · exact SegBlockedE.atom (fun x hx => (keyCI_char_props hkey x hx).1)
              (by decide) (by decide)
          · exact ih (rest.drop (m - 1))
              (by rw [List.length_cons] at hs; simp [List.length_drop]; omega)
              (emailFree_drop (emailFree_of_cons hf) (m - 1))
  exact fun s => main s.length s (le_refl _)

theorem redact_text_idem (s : List Char) : redact_text (redact_text s) = redact_text s := by
  have hef : emailFree (redact_text s) :=
    emailFree_tokenSub (emailSub s) (emailFree_emailSub s)
  have htf : tokenFree (redact_text s) := tokenFree_tokenSub (emailSub s)
  show tokenSub (emailSub (redact_text s)) = redact_text s
  rw [emailSub_of_emailFree _ hef, tokenSub_of_tokenFree _ htf]

theorem redactString_idem (s : String) : redactString (redactString s) = redactString s := by
  show (⟨redact_text (⟨redact_text s.data⟩ : String).data⟩ : String) =
    (⟨redact_text s.data⟩ : String)
  rw [show (⟨redact_text s.data⟩ : String).data = redact_text s.data from rfl,
    redact_text_idem]

theorem redactArr_idem_of (items : List Json)
    (h : ∀ v ∈ items, redact_json (redact_json v) = redact_json v) :
    redactArr (redactArr items) = redactArr items := by
  induction items with
  | nil => simp [redactArr]
  | cons v rest ih =>
    simp only [redactArr]
    rw [h v (List.mem_cons_self v rest),
      ih (fun w hw => h w (List.mem_cons_of_mem v hw))]

theorem redactObj_idem_of (fields : List (String × Json))
    (h : ∀ p ∈ fields, redact_json (redact_json p.2) = redact_json p.2) :
    redactObj (redactObj fields) = redactObj fields := by
  induction fields with
  | nil => simp [redactObj]
  | cons p rest ih =>
    obtain ⟨k, v⟩ := p
    simp only [redactObj]
    rw [h (k, v) (List.mem_cons_self _ rest),
      ih (fun q hq => h q (List.mem_cons_of_mem _ hq))]

theorem redact_json_idem_aux : ∀ (n : Nat) (v : Json), sizeOf v ≤ n →
    redact_json (redact_json v) = redact_json v := by
  intro n
  induction n with
  | zero =>
    intro v hv
    exfalso
    have hpos : 0 < sizeOf v := by cases v <;> simp_arith
    omega
  | succ n ih =>
    intro v hv
    cases v with
    | null => simp [redact_json]
    | bool b => simp [redact_json]
    | num q => simp [redact_json]
    | str s =>
      simp only [redact_json]
      rw [redactString_idem]
    | arr items =>
      simp only [redact_json]
      rw [redactArr_idem_of items (fun w hw => ih w (by
        have h1 := List.sizeOf_lt_of_mem hw
        have h2 : sizeOf (Json.arr items) = 1 + sizeOf items := by simp_arith
        omega))]
    | obj fields =>
      simp only [redact_json]
      rw [redactObj_idem_of fields (fun p hp => ih p.2 (by
        have h1 := List.sizeOf_lt_of_mem hp
        have h2 : sizeOf (Json.obj fields) = 1 + sizeOf fields := by simp_arith
        have h3 : sizeOf p.2 < sizeOf p := by
          obtain ⟨a, b⟩ := p
          simp_arith
        omega))]

/-- C8: the audit-log redaction is idempotent: for every JSON value
(strings, arrays, objects and non-string leaves), applying `redact_json`
twice equals applying it once.  Redaction replaces `EMAIL_RE` matches with
`[redacted-email]` and case-insensitive `api_key|token|secret=value`
matches with `key=[redacted]`, recursively through the structure. -/
theorem c8_theorem (v : Json) : redact_json (redact_json v) = redact_json v :=
  redact_json_idem_aux (sizeOf v) v (le_refl _)
